import Mathlib

/-!
Verification development for the Gomoku test-suite repository.

`src/gomoku.py` in the repository is an explicit placeholder: every public
function unconditionally raises `NotImplementedError`.  The engine that the
design document describes is therefore modelled here from the design document
itself (definitions marked `Modelled from the spec:`), while the placeholder
module and the master test runner `src/run_all_tests.py` are embedded from
their actual source code.
-/

/-- Modelled from the spec: cell values of the board data model (§3):
EMPTY, BLACK, WHITE.  The tests use the glyphs `' '`, `'b'`, `'w'`. -/
inductive Cell where
  | empty
  | black
  | white
deriving DecidableEq, Repr

/-- Modelled from the spec: a board is a 2-D array of cells, 0-indexed
`(row, col)`; in the Python tests it is a list of list of glyphs. -/
abbrev Board : Type := List (List Cell)

/-- Reading a cell at possibly out-of-range integer coordinates.  Returns
`none` exactly when the coordinate is outside the stored grid; the engine
never dereferences `none` (out-of-range flanks are treated as blocked). -/
def cellAt (bd : Board) (y x : Int) : Option Cell :=
  if 0 ≤ y ∧ 0 ≤ x then
    match bd.get? y.toNat with
    | some row => row.get? x.toNat
    | none => none
  else
    none

/-- Error value modelling a raised Python exception. -/
inductive PyError where
  | notImplementedError (msg : String)
  | assertionError (msg : String)
deriving DecidableEq, Repr

/-- The message used by every stub in `src/gomoku.py`. -/
def placeholderMsg : String := "Replace this file with your gomoku.py"

namespace GomokuPy

/-- `make_empty_board` from src/gomoku.py: unconditionally raises. -/
def make_empty_board (_size : Nat) : Except PyError Board :=
  .error (.notImplementedError placeholderMsg)

/-- `put_seq_on_board` from src/gomoku.py: unconditionally raises. -/
def put_seq_on_board (_board : Board) (_y _x _d_y _d_x : Int) (_length : Nat)
    (_col : Cell) : Except PyError Unit :=
  .error (.notImplementedError placeholderMsg)

/-- `is_empty` from src/gomoku.py: unconditionally raises. -/
def is_empty (_board : Board) : Except PyError Bool :=
  .error (.notImplementedError placeholderMsg)

/-- `is_bounded` from src/gomoku.py: unconditionally raises. -/
def is_bounded (_board : Board) (_y_end _x_end : Int) (_length : Nat)
    (_d_y _d_x : Int) : Except PyError String :=
  .error (.notImplementedError placeholderMsg)

/-- `detect_row` from src/gomoku.py: unconditionally raises. -/
def detect_row (_board : Board) (_col : Cell) (_y_start _x_start : Int)
    (_length : Nat) (_d_y _d_x : Int) : Except PyError (Nat × Nat) :=
  .error (.notImplementedError placeholderMsg)

/-- `detect_rows` from src/gomoku.py: unconditionally raises. -/
def detect_rows (_board : Board) (_col : Cell) (_length : Nat) :
    Except PyError (Nat × Nat) :=
  .error (.notImplementedError placeholderMsg)

/-- `score` from src/gomoku.py: unconditionally raises. -/
def score (_board : Board) : Except PyError Int :=
  .error (.notImplementedError placeholderMsg)

/-- `search_max` from src/gomoku.py: unconditionally raises. -/
def search_max (_board : Board) : Except PyError (Option (Nat × Nat)) :=
  .error (.notImplementedError placeholderMsg)

/-- `is_win` from src/gomoku.py: unconditionally raises. -/
def is_win (_board : Board) : Except PyError String :=
  .error (.notImplementedError placeholderMsg)

/-- `print_board` from src/gomoku.py: unconditionally raises. -/
def print_board (_board : Board) : Except PyError String :=
  .error (.notImplementedError placeholderMsg)

end GomokuPy

/-- Modelled from the spec: `make_board(size)` (§6) returns a `size × size`
grid with every cell EMPTY.  The Python name is `make_empty_board`. -/
def make_empty_board (size : Nat) : Board :=
  List.replicate size (List.replicate size Cell.empty)

/-- Writing one cell at in-range natural coordinates (out-of-range writes
are a no-op, mirroring the invariant that they never happen, §3). -/
def placeStone (bd : Board) (y x : Nat) (c : Cell) : Board :=
  bd.set y (((bd.get? y).getD []).set x c)

/-- Writing one cell at integer coordinates. -/
def placeStoneI (bd : Board) (y x : Int) (c : Cell) : Board :=
  if 0 ≤ y ∧ 0 ≤ x then placeStone bd y.toNat x.toNat c else bd

/-- Modelled from the spec: `place_run` (§6) writes `col` into `length`
consecutive cells starting at `(y, x)` stepping by `(d_y, d_x)`;
`length = 0` is a no-op.  The Python name is `put_seq_on_board`. -/
def put_seq_on_board (bd : Board) (y x d_y d_x : Int) (length : Nat)
    (col : Cell) : Board :=
  (List.range length).foldl
    (fun b k => placeStoneI b (y + (k : Int) * d_y) (x + (k : Int) * d_x) col)
    bd

/-- Modelled from the spec: `is_empty(board)` (§6) is true iff every cell
is EMPTY. -/
def is_empty (bd : Board) : Bool :=
  bd.all fun row => row.all fun c => c = Cell.empty

/-- The board has no empty cell (the DRAW / full-board condition, §4.4). -/
def noEmptyCell (bd : Board) : Bool :=
  bd.all fun row => row.all fun c => ¬(c = Cell.empty)

/-- Well-formedness of a board: an `N × N` grid (every row as long as the
list of rows), as the data model (§3) requires. -/
def WFb (bd : Board) : Bool :=
  bd.all fun row => row.length = bd.length

/-- The opposite color (used by the flank test; on EMPTY it is EMPTY and
the case never arises for a real run, §3). -/
def oppColor : Cell → Cell
  | .black => .white
  | .white => .black
  | .empty => .empty

/-- The run's own color, read off the board at the run's end coordinate
(the Python `is_bounded` has no color parameter, so a correct
implementation reads it from the board). -/
def runColor (bd : Board) (y x : Int) : Cell :=
  (cellAt bd y x).getD Cell.empty

/-- Coordinate inside `[0,N)` on both axes, `N` the board size. -/
def inBoardB (bd : Board) (y x : Int) : Bool :=
  decide (0 ≤ y) && decide (y < (bd.length : Int)) &&
    decide (0 ≤ x) && decide (x < (bd.length : Int))

/-- Modelled from the spec: a flank is BLOCKED if its coordinate is out of
`[0,N)` in either axis, or the cell there holds the color opposite to the
run's own color (§4.1). -/
def flank_blocked (bd : Board) (col : Cell) (y x : Int) : Bool :=
  !(inBoardB bd y x) || decide (cellAt bd y x = some (oppColor col))

/-- Modelled from the spec: a flank is FREE if its coordinate is in range
and the cell there is empty (§4.1). -/
def flank_free (bd : Board) (y x : Int) : Bool :=
  inBoardB bd y x && decide (cellAt bd y x = some Cell.empty)

/-- Modelled from the spec: the Boundedness Classifier (§4.1), with the
Python signature `is_bounded(board, y_end, x_end, length, d_y, d_x)`.
Start is `end - (length-1)*direction`; flanks are `start - direction` and
`end + direction`; OPEN if both flanks free, CLOSED if both blocked,
SEMIOPEN otherwise. -/
def is_bounded (bd : Board) (y_end x_end : Int) (length : Nat)
    (d_y d_x : Int) : String :=
  let col := runColor bd y_end x_end
  let y_start := y_end - ((length : Int) - 1) * d_y
  let x_start := x_end - ((length : Int) - 1) * d_x
  let fbY := y_start - d_y
  let fbX := x_start - d_x
  let faY := y_end + d_y
  let faX := x_end + d_x
  if flank_free bd fbY fbX && flank_free bd faY faX then "OPEN"
  else if flank_blocked bd col fbY fbX && flank_blocked bd col faY faX then
    "CLOSED"
  else "SEMIOPEN"

/-- Fuel-indexed walk along a line: collect cells from `(y, x)` stepping by
`(d_y, d_x)` while the coordinate is on the board. -/
def lineAux (bd : Board) : Nat → Int → Int → Int → Int → List Cell
  | 0, _, _, _, _ => []
  | fuel + 1, y, x, d_y, d_x =>
    match cellAt bd y x with
    | none => []
    | some c => c :: lineAux bd fuel (y + d_y) (x + d_x) d_y d_x

/-- The cells of the line starting at `(y, x)` and extending while
in-bounds along `(d_y, d_x)` (§4.2).  Fuel `N + 1` is enough: an in-range
walk along any of the eight unit directions has at most `N` cells. -/
def lineCells (bd : Board) (y x d_y d_x : Int) : List Cell :=
  lineAux bd (bd.length + 1) y x d_y d_x

/-- Group a line into its maximal constant runs, as `(value, run length)`
pairs in order. -/
def groupRuns : List Cell → List (Cell × Nat)
  | [] => []
  | c :: rest =>
    match groupRuns rest with
    | [] => [(c, 1)]
    | (c2, n) :: gs => if c = c2 then (c2, n + 1) :: gs else (c, 1) :: (c2, n) :: gs

/-- Attach to each group its end index along the line, given the index at
which the first group starts. -/
def withEnds : List (Cell × Nat) → Nat → List (Cell × Nat × Nat)
  | [], _ => []
  | (c, n) :: gs, start => (c, start + n - 1, n) :: withEnds gs (start + n)

/-- Modelled from the spec: the Run Scanner (§4.2) with the Python
signature `detect_row(board, col, y_start, x_start, length, d_y, d_x)`.
Walks the line, and for every maximal run of `col` whose length equals
`length` exactly, classifies it and tallies OPEN / SEMIOPEN (CLOSED runs
are ignored). -/
def detect_row (bd : Board) (col : Cell) (y_start x_start : Int)
    (length : Nat) (d_y d_x : Int) : Nat × Nat :=
  let cells := lineCells bd y_start x_start d_y d_x
  (withEnds (groupRuns cells) 0).foldl
    (fun acc g =>
      if g.1 = col ∧ g.2.2 = length then
        let r := is_bounded bd (y_start + (g.2.1 : Int) * d_y)
          (x_start + (g.2.1 : Int) * d_x) length d_y d_x
        if r = "OPEN" then (acc.1 + 1, acc.2)
        else if r = "SEMIOPEN" then (acc.1, acc.2 + 1)
        else acc
      else acc)
    (0, 0)

/-- A canonical line start: start coordinate and scan direction. -/
structure Line where
  y : Int
  x : Int
  dy : Int
  dx : Int
deriving DecidableEq, Repr

/-- Modelled from the spec: the Board Scanner's canonical line enumeration
(§4.3): each row from its leftmost cell, each column from its topmost
cell, each down-right diagonal from its topmost/leftmost end (row 0 and
column 0 starts), each down-left diagonal from row 0 and column `N-1`
starts; every line exactly once. -/
def scanStarts (N : Nat) : List Line :=
  ((List.range N).map fun i => ⟨(i : Int), 0, 0, 1⟩) ++
  ((List.range N).map fun j => ⟨0, (j : Int), 1, 0⟩) ++
  ((List.range N).map fun j => ⟨0, (j : Int), 1, 1⟩) ++
  ((List.range (N - 1)).map fun i => ⟨(i : Int) + 1, 0, 1, 1⟩) ++
  ((List.range N).map fun j => ⟨0, (j : Int), 1, -1⟩) ++
  ((List.range (N - 1)).map fun i => ⟨(i : Int) + 1, (N : Int) - 1, 1, -1⟩)

/-- Modelled from the spec: the Board Scanner (§4.3) with the Python
signature `detect_rows(board, col, length)`: sum the Run Scanner's tallies
over every canonical line. -/
def detect_rows (bd : Board) (col : Cell) (length : Nat) : Nat × Nat :=
  (scanStarts bd.length).foldl
    (fun acc s =>
      let r := detect_row bd col s.y s.x length s.dy s.dx
      (acc.1 + r.1, acc.2 + r.2))
    (0, 0)

/-- Modelled from the spec: whether some maximal run of `col` of length at
least `n` exists on some canonical line (the Outcome Detector's
"any run of length 5 or greater" check, §4.4). -/
def hasRunAtLeast (bd : Board) (col : Cell) (n : Nat) : Bool :=
  (scanStarts bd.length).any fun s =>
    (groupRuns (lineCells bd s.y s.x s.dy s.dx)).any fun g =>
      decide (g.1 = col) && decide (n ≤ g.2)

/-- Modelled from the spec: the Outcome Detector (§4.4), black checked
before white, then full-board draw, with the verdict strings the
repository's tests expect. -/
def is_win (bd : Board) : String :=
  if hasRunAtLeast bd Cell.black 5 then "Black won"
  else if hasRunAtLeast bd Cell.white 5 then "White won"
  else if noEmptyCell bd then "Draw"
  else "Continue playing"

/-- Modelled from the spec: value of an OPEN run by length (§4.5). -/
def openVal : Nat → Int
  | 2 => 10
  | 3 => 100
  | 4 => 10000
  | _ => 0

/-- Modelled from the spec: value of a SEMIOPEN run by length (§4.5). -/
def semiVal : Nat → Int
  | 2 => 1
  | 3 => 10
  | 4 => 1000
  | _ => 0

/-- Contribution of a `(open, semiopen)` tally at a given length. -/
def tallyContrib (p : Nat × Nat) (L : Nat) : Int :=
  (p.1 : Int) * openVal L + (p.2 : Int) * semiVal L

/-- Black's tally contribution minus white's, at one length. -/
def colorTerm (bd : Board) (L : Nat) : Int :=
  tallyContrib (detect_rows bd Cell.black L) L -
    tallyContrib (detect_rows bd Cell.white L) L

/-- Modelled from the spec: the non-terminal part of the Position
Evaluator (§4.5): sum over lengths 2, 3, 4 of black's contribution minus
white's. -/
def tallySum (bd : Board) : Int :=
  colorTerm bd 2 + colorTerm bd 3 + colorTerm bd 4

/-- Modelled from the spec: the Position Evaluator (§4.5): ±100000 on a
decided board (Outcome Detector's win checks, black first), otherwise the
signed tally sum. -/
def score (bd : Board) : Int :=
  if hasRunAtLeast bd Cell.black 5 then 100000
  else if hasRunAtLeast bd Cell.white 5 then -100000
  else tallySum bd

/-- Row-major enumeration of all cell coordinates of the board. -/
def rowMajor (bd : Board) : List (Nat × Nat) :=
  bd.enum.flatMap fun p => (List.range p.2.length).map fun x => (p.1, x)

/-- One step of the Move Selector's loop: on an empty cell, place a BLACK
stone, score, remove the stone again, and keep the best (strictly better)
score, earliest cell first. -/
def searchStep (acc : Option (Nat × Nat × Int) × Board) (p : Nat × Nat) :
    Option (Nat × Nat × Int) × Board :=
  let (best, bd) := acc
  if cellAt bd (p.1 : Int) (p.2 : Int) = some Cell.empty then
    let bd2 := placeStone bd p.1 p.2 Cell.black
    let s := score bd2
    let bd3 := placeStone bd2 p.1 p.2 Cell.empty
    let best2 :=
      match best with
      | none => some (p.1, p.2, s)
      | some (by_, bx, bs) =>
        if bs < s then some (p.1, p.2, s) else some (by_, bx, bs)
    (best2, bd3)
  else acc

/-- Modelled from the spec: the Move Selector (§4.6) as explicit state
passing over the mutable board: NONE on a completely empty board,
otherwise scan cells in row-major order, tentatively play BLACK on each
empty cell, score, revert, and return the first cell achieving the
maximum score (NONE when the board has no empty cell).  The second
component is the board as left behind by the call. -/
def searchMaxSt (bd : Board) : Option (Nat × Nat) × Board :=
  if is_empty bd then (none, bd)
  else
    let r := (rowMajor bd).foldl searchStep (none, bd)
    match r.1 with
    | none => (none, r.2)
    | some (y, x, _) => (some (y, x), r.2)

/-- Modelled from the spec: the value `search_max` returns; Python's
`(None, None)` is modelled as `none`. -/
def search_max (bd : Board) : Option (Nat × Nat) :=
  (searchMaxSt bd).1

/-- The four canonical scan orientations (§3). -/
def canonDirs : List (Int × Int) := [(0, 1), (1, 0), (1, 1), (1, -1)]

/-- A maximal run of color `c` in a line of cells: `n ≥ 1` cells of `c`
starting at index `i`, with the cell after (if any) not `c` and the cell
before (if any) not `c` (§3). -/
def MaxRunAt (l : List Cell) (c : Cell) (i n : Nat) : Prop :=
  1 ≤ n ∧ (∀ j, j < n → l.get? (i + j) = some c) ∧
    l.get? (i + n) ≠ some c ∧ (i = 0 ∨ l.get? (i - 1) ≠ some c)

instance (l : List Cell) (c : Cell) (i n : Nat) : Decidable (MaxRunAt l c i n) := by
  unfold MaxRunAt
  infer_instance

/-- `n` consecutive cells of color `c` exist somewhere on the board along
one of the four canonical orientations (equivalently: a maximal run of
length at least `n` exists). -/
def HasRun (bd : Board) (c : Cell) (n : Nat) : Prop :=
  ∃ d ∈ canonDirs, ∃ y x : Int,
    ∀ k : Nat, k < n → cellAt bd (y + (k : Int) * d.1) (x + (k : Int) * d.2) = some c

/-- No two adjacent same-colored stones anywhere on the board, in any of
the four canonical orientations (no run of length two or more). -/
def NoAdjPair (bd : Board) : Prop :=
  ∀ c ∈ [Cell.black, Cell.white], ∀ d ∈ canonDirs,
    ∀ y, y < bd.length → ∀ x, x < bd.length →
      ¬(cellAt bd (y : Int) (x : Int) = some c ∧
        cellAt bd ((y : Int) + d.1) ((x : Int) + d.2) = some c)

instance (bd : Board) : Decidable (NoAdjPair bd) := by
  unfold NoAdjPair
  infer_instance

/-- State of the master test runner's counters (`failures`,
`total_tests` globals in src/run_all_tests.py). -/
structure RunnerState where
  failures : Nat
  total_tests : Nat
deriving DecidableEq, Repr

/-- `run_test` from src/run_all_tests.py: runs one test, catching any
exception it raises; a test's execution is modelled by its outcome, `ok`
for a normal return and `error` for any raised exception.  Increments
`total_tests` always and `failures` exactly on an exception; returns the
pass flag. -/
def run_test (st : RunnerState) (result : Except PyError Unit) :
    RunnerState × Bool :=
  let st1 : RunnerState := ⟨st.failures, st.total_tests + 1⟩
  match result with
  | .ok _ => (st1, true)
  | .error _ => (⟨st1.failures + 1, st1.total_tests⟩, false)

/-- `main` from src/run_all_tests.py, counting phase: run every test of
the given list in order through `run_test`, starting from zeroed
counters. -/
def runAll (tests : List (Except PyError Unit)) : RunnerState :=
  tests.foldl (fun st t => (run_test st t).1) ⟨0, 0⟩

/-- `main` from src/run_all_tests.py, exit phase:
`sys.exit(0 if failures == 0 else 1)`. -/
def mainExitCode (tests : List (Except PyError Unit)) : Nat :=
  if (runAll tests).failures = 0 then 0 else 1

/-! ### Basic list lemmas -/

theorem List.set_self_of_get? {α : Type _} :
    ∀ (l : List α) (i : Nat) (v : α), l.get? i = some v → l.set i v = l := by
  intro l
  induction l with
  | nil => intro i v h; simp at h
  | cons a as ih =>
    intro i v h
    cases i with
    | zero => simp at h; simp [h]
    | succ n =>
      have h2 : as.get? n = some v := h
      show a :: as.set n v = a :: as
      rw [ih n v h2]

/-! ### C1: the placeholder module -/

/-- C1: every one of the ten public functions in src/gomoku.py raises
`NotImplementedError` on every call, for every input. -/
theorem gomoku_placeholder_all_raise :
    ∀ (size : Nat) (bd : Board) (y x d_y d_x : Int) (len : Nat) (col : Cell)
      (y0 x0 : Int) (L : Nat),
      GomokuPy.make_empty_board size = .error (.notImplementedError placeholderMsg) ∧
      GomokuPy.put_seq_on_board bd y x d_y d_x len col =
        .error (.notImplementedError placeholderMsg) ∧
      GomokuPy.is_empty bd = .error (.notImplementedError placeholderMsg) ∧
      GomokuPy.is_bounded bd y x len d_y d_x =
        .error (.notImplementedError placeholderMsg) ∧
      GomokuPy.detect_row bd col y0 x0 L d_y d_x =
        .error (.notImplementedError placeholderMsg) ∧
      GomokuPy.detect_rows bd col L = .error (.notImplementedError placeholderMsg) ∧
      GomokuPy.score bd = .error (.notImplementedError placeholderMsg) ∧
      GomokuPy.search_max bd = .error (.notImplementedError placeholderMsg) ∧
      GomokuPy.is_win bd = .error (.notImplementedError placeholderMsg) ∧
      GomokuPy.print_board bd = .error (.notImplementedError placeholderMsg) :=
  fun _ _ _ _ _ _ _ _ _ _ _ =>
    ⟨rfl, rfl, rfl, rfl, rfl, rfl, rfl, rfl, rfl, rfl⟩

/-! ### C7: the Move Selector restores the board -/

theorem place_revert (bd : Board) (y x : Nat)
    (h : cellAt bd (y : Int) (x : Int) = some Cell.empty) :
    placeStone (placeStone bd y x Cell.black) y x Cell.empty = bd := by
  unfold cellAt at h
  simp only [Int.toNat_natCast] at h
  rw [if_pos (by constructor <;> positivity)] at h
  cases hrow : bd.get? y with
  | none => rw [hrow] at h; simp at h
  | some row =>
    rw [hrow] at h
    unfold placeStone
    rw [hrow]
    simp only [Option.getD_some]
    have hy : y < bd.length := (List.get?_eq_some.mp hrow).1
    have h1 : (bd.set y (row.set x Cell.black)).get? y = some (row.set x Cell.black) := by
      rw [List.get?_eq_getElem?]
      exact List.getElem?_set_eq_of_lt _ (by simpa using hy)
    rw [h1]
    simp only [Option.getD_some, List.set_set]
    rw [List.set_self_of_get? row x Cell.empty h]
    exact List.set_self_of_get? bd y row hrow

theorem searchStep_board (acc : Option (Nat × Nat × Int) × Board) (p : Nat × Nat) :
    (searchStep acc p).2 = acc.2 := by
  obtain ⟨best, bd⟩ := acc
  unfold searchStep
  by_cases h : cellAt bd (p.1 : Int) (p.2 : Int) = some Cell.empty
  · simp only [h, if_pos rfl]
    simpa using place_revert bd p.1 p.2 h
  · simp [h]

theorem foldl_searchStep_board :
    ∀ (ps : List (Nat × Nat)) (acc : Option (Nat × Nat × Int) × Board),
      (ps.foldl searchStep acc).2 = acc.2 := by
  intro ps
  induction ps with
  | nil => intro acc; rfl
  | cons p ps ih =>
    intro acc
    rw [List.foldl_cons, ih (searchStep acc p), searchStep_board]

/-- C7: `search_max` leaves the board exactly as it was before the call,
on every exit path. -/
theorem search_max_preserves_board : ∀ bd : Board, (searchMaxSt bd).2 = bd := by
  intro bd
  unfold searchMaxSt
  by_cases h : is_empty bd
  · simp [h]
  · simp only [h, Bool.false_eq_true, if_false]
    have hb := foldl_searchStep_board (rowMajor bd) (none, bd)
    cases hr : ((rowMajor bd).foldl searchStep (none, bd)).1 with
    | none => simp only [hr]; exact hb
    | some v => obtain ⟨vy, vx, vs⟩ := v; simp only [hr]; exact hb

/-! ### C10: the master test runner -/

/-- Did a test's execution end normally? -/
def testPassed : Except PyError Unit → Bool
  | .ok _ => true
  | .error _ => false

theorem runAll_aux :
    ∀ (ts : List (Except PyError Unit)) (f n : Nat),
      ts.foldl (fun st t => (run_test st t).1) ⟨f, n⟩ =
        ⟨f + ts.countP (fun t => !testPassed t), n + ts.length⟩ := by
  intro ts
  induction ts with
  | nil => intro f n; simp
  | cons t ts ih =>
    intro f n
    rw [List.foldl_cons]
    cases t with
    | ok v =>
      show ts.foldl _ (⟨f, n + 1⟩ : RunnerState) = _
      rw [ih]
      simp [List.countP_cons, testPassed]
      omega
    | error e =>
      show ts.foldl _ (⟨f + 1, n + 1⟩ : RunnerState) = _
      rw [ih]
      simp [List.countP_cons, testPassed]
      omega

theorem runAll_eq (tests : List (Except PyError Unit)) :
    runAll tests = ⟨tests.countP (fun t => !testPassed t), tests.length⟩ := by
  unfold runAll
  rw [runAll_aux]
  simp

/-- C10: the runner executes every test of its list regardless of earlier
failures (each failing test is caught, never aborting the run), and the
process exit code is 0 iff every test passed, 1 otherwise. -/
theorem run_all_tests_main_spec :
    ∀ tests : List (Except PyError Unit),
      (runAll tests).total_tests = tests.length ∧
      (mainExitCode tests = 0 ↔ ∀ t ∈ tests, testPassed t = true) ∧
      (mainExitCode tests = 1 ↔ ¬∀ t ∈ tests, testPassed t = true) := by
  intro tests
  have hkey : (runAll tests).failures = 0 ↔ ∀ t ∈ tests, testPassed t = true := by
    rw [runAll_eq]
    simp only [List.countP_eq_zero]
    constructor
    · intro h t ht
      have := h t ht
      simpa using this
    · intro h t ht
      simpa using h t ht
  refine ⟨by rw [runAll_eq], ?_, ?_⟩
  · unfold mainExitCode
    by_cases h : (runAll tests).failures = 0
    · rw [if_pos h]
      exact iff_of_true rfl (hkey.mp h)
    · rw [if_neg h]
      exact iff_of_false (by omega) fun hall => h (hkey.mpr hall)
  · unfold mainExitCode
    by_cases h : (runAll tests).failures = 0
    · rw [if_pos h]
      exact iff_of_false (by omega) (not_not_intro (hkey.mp h))
    · rw [if_neg h]
      exact iff_of_true rfl fun hall => h (hkey.mpr hall)


/-! ### Properties of `groupRuns` -/

theorem groupRuns_cons_nil (a : Cell) (rest : List Cell)
    (h : groupRuns rest = []) : groupRuns (a :: rest) = [(a, 1)] := by
  show (match groupRuns rest with
    | [] => [(a, 1)]
    | (c2, n) :: gs =>
      if a = c2 then (c2, n + 1) :: gs else (a, 1) :: (c2, n) :: gs) = _
  rw [h]

theorem groupRuns_cons_cons (a c2 : Cell) (n : Nat) (rest : List Cell)
    (gs : List (Cell × Nat)) (h : groupRuns rest = (c2, n) :: gs) :
    groupRuns (a :: rest) =
      if a = c2 then (c2, n + 1) :: gs else (a, 1) :: (c2, n) :: gs := by
  show (match groupRuns rest with
    | [] => [(a, 1)]
    | (c2, n) :: gs =>
      if a = c2 then (c2, n + 1) :: gs else (a, 1) :: (c2, n) :: gs) = _
  rw [h]

theorem groupRuns_eq_nil_iff (l : List Cell) : groupRuns l = [] ↔ l = [] := by
  cases l with
  | nil => simp [groupRuns]
  | cons a rest =>
    cases hr : groupRuns rest with
    | nil => rw [groupRuns_cons_nil a rest hr]; simp
    | cons hd tl =>
      obtain ⟨c2, n⟩ := hd
      rw [groupRuns_cons_cons a c2 n rest tl hr]
      by_cases hac : a = c2 <;> simp [hac]

theorem groupRuns_pos :
    ∀ (l : List Cell) (g : Cell × Nat), g ∈ groupRuns l → 1 ≤ g.2 := by
  intro l
  induction l with
  | nil => intro g hg; simp [groupRuns] at hg
  | cons a rest ih =>
    intro g hg
    cases hr : groupRuns rest with
    | nil =>
      rw [groupRuns_cons_nil a rest hr] at hg
      simp at hg; simp [hg]
    | cons hd tl =>
      obtain ⟨c2, n⟩ := hd
      rw [groupRuns_cons_cons a c2 n rest tl hr] at hg
      by_cases hac : a = c2
      · rw [if_pos hac] at hg
        rcases List.mem_cons.mp hg with h | h
        · simp [h]
        · exact ih g (hr ▸ List.mem_cons_of_mem _ h)
      · rw [if_neg hac] at hg
        rcases List.mem_cons.mp hg with h | h
        · simp [h]
        · exact ih g (hr ▸ h)

theorem groupRuns_head :
    ∀ (l : List Cell) (c : Cell) (n : Nat) (gs : List (Cell × Nat)),
      groupRuns l = (c, n) :: gs →
      (∀ j, j < n → l.get? j = some c) ∧ l.get? n ≠ some c ∧
        groupRuns (l.drop n) = gs := by
  intro l
  induction l with
  | nil => intro c n gs h; simp [groupRuns] at h
  | cons a rest ih =>
    intro c n gs h
    cases hr : groupRuns rest with
    | nil =>
      rw [groupRuns_cons_nil a rest hr] at h
      have hrest : rest = [] := (groupRuns_eq_nil_iff rest).mp hr
      simp only [List.cons.injEq, Prod.mk.injEq] at h
      obtain ⟨⟨hc, hn⟩, hgs⟩ := h
      subst hc; subst hrest
      refine ⟨?_, ?_, ?_⟩
      · intro j hj
        rw [← hn] at hj
        interval_cases j
        rfl
      · rw [← hn]; simp
      · rw [← hn, ← hgs]; rfl
    | cons hd tl =>
      obtain ⟨c2, m⟩ := hd
      rw [groupRuns_cons_cons a c2 m rest tl hr] at h
      obtain ⟨hj, hne, hdrop⟩ := ih c2 m tl hr
      by_cases hac : a = c2
      · rw [if_pos hac] at h
        simp only [List.cons.injEq, Prod.mk.injEq] at h
        obtain ⟨⟨hc, hn⟩, hgs⟩ := h
        subst hc
        refine ⟨?_, ?_, ?_⟩
        · intro j hjlt
          cases j with
          | zero => simpa using hac
          | succ j2 =>
            have hj2 : j2 < m := by omega
            simpa using hj j2 hj2
        · rw [← hn]
          simpa using hne
        · rw [← hn, ← hgs]
          simpa using hdrop
      · rw [if_neg hac] at h
        simp only [List.cons.injEq, Prod.mk.injEq] at h
        obtain ⟨⟨hc, hn⟩, hgs⟩ := h
        subst hc
        have hm1 : 1 ≤ m := groupRuns_pos rest (c2, m) (hr ▸ List.mem_cons_self _ _)
        refine ⟨?_, ?_, ?_⟩
        · intro j hjlt
          rw [← hn] at hjlt
          interval_cases j
          rfl
        · rw [← hn]
          have h0 : rest.get? 0 = some c2 := hj 0 hm1
          simp only [List.get?_cons_succ, h0]
          intro hcc
          exact hac (by simpa using hcc.symm)
        · rw [← hn, ← hgs]
          exact hr

theorem groups_sound_aux :
    ∀ (k : Nat) (l : List Cell), l.length ≤ k →
      ∀ g ∈ groupRuns l, ∃ i, MaxRunAt l g.1 i g.2 := by
  intro k
  induction k with
  | zero =>
    intro l hl g hg
    have hnil : l = [] := List.length_eq_zero.mp (Nat.le_zero.mp hl)
    subst hnil
    simp [groupRuns] at hg
  | succ k ih =>
    intro l hl g hg
    cases hgr : groupRuns l with
    | nil => rw [hgr] at hg; simp at hg
    | cons hd tl =>
      obtain ⟨c, n⟩ := hd
      obtain ⟨hj, hne, hdrop⟩ := groupRuns_head l c n tl hgr
      have hn1 : 1 ≤ n := groupRuns_pos l (c, n) (hgr ▸ List.mem_cons_self _ _)
      have hlpos : 1 ≤ l.length := by
        rcases l with _ | _
        · simp [groupRuns] at hgr
        · simp
      rw [hgr] at hg
      rcases List.mem_cons.mp hg with hhead | htail
      · subst hhead
        exact ⟨0, hn1, by simpa using hj, by simpa using hne, Or.inl rfl⟩
      · have hlen : (l.drop n).length ≤ k := by
          rw [List.length_drop]
          omega
        obtain ⟨i, h1, h2, h3, h4⟩ := ih (l.drop n) hlen g (hdrop ▸ htail)
        refine ⟨n + i, h1, ?_, ?_, ?_⟩
        · intro j hjlt
          have hh := h2 j hjlt
          rw [List.get?_drop] at hh
          rw [show n + i + j = n + (i + j) by omega]
          exact hh
        · rw [show n + i + g.2 = n + (i + g.2) by omega, ← List.get?_drop]
          exact h3
        · right
          by_cases hi : i = 0
          · subst hi
            have hg1 : (l.drop n).get? 0 = some g.1 := h2 0 h1
            rw [List.get?_drop] at hg1
            have hcfl : l.get? (n - 1) = some c := hj (n - 1) (by omega)
            rw [show n + 0 - 1 = n - 1 by omega, hcfl]
            intro hcc
            have hcg : c = g.1 := by simpa using hcc
            rw [show (n : Nat) + 0 = n by omega] at hg1
            exact hne (hcg ▸ hg1)
          · rcases h4 with hi0 | hprev
            · exact absurd hi0 hi
            · rw [show n + i - 1 = n + (i - 1) by omega, ← List.get?_drop]
              exact hprev

theorem groups_sound (l : List Cell) (g : Cell × Nat) (hg : g ∈ groupRuns l) :
    ∃ i, MaxRunAt l g.1 i g.2 :=
  groups_sound_aux l.length l le_rfl g hg

theorem head_run :
    ∀ (m : Nat) (l : List Cell) (c : Cell), 1 ≤ m →
      (∀ j, j < m → l.get? j = some c) →
      ∃ n gs, groupRuns l = (c, n) :: gs ∧ m ≤ n := by
  intro m
  induction m with
  | zero => intro l c h; omega
  | succ m ih =>
    intro l c _ hj
    have h0 : l.get? 0 = some c := hj 0 (by omega)
    rcases l with _ | ⟨a, rest⟩
    · simp at h0
    · have ha : a = c := by simpa using h0
      subst ha
      by_cases hm : m = 0
      · subst hm
        cases hr : groupRuns rest with
        | nil => exact ⟨1, [], groupRuns_cons_nil a rest hr, le_rfl⟩
        | cons hd tl =>
          obtain ⟨c2, n⟩ := hd
          by_cases hac : a = c2
          · subst hac
            refine ⟨n + 1, tl, ?_, by omega⟩
            rw [groupRuns_cons_cons a a n rest tl hr, if_pos rfl]
          · refine ⟨1, (c2, n) :: tl, ?_, le_rfl⟩
            rw [groupRuns_cons_cons a c2 n rest tl hr, if_neg hac]
      · have hrestrun : ∀ j, j < m → rest.get? j = some a := by
          intro j hjm
          have hjj := hj (j + 1) (by omega)
          simpa using hjj
        obtain ⟨n, gs, hgr, hmn⟩ := ih rest a (by omega) hrestrun
        refine ⟨n + 1, gs, ?_, by omega⟩
        rw [groupRuns_cons_cons a a n rest gs hgr, if_pos rfl]

theorem groups_lift (a : Cell) (rest : List Cell) (g : Cell × Nat)
    (hg : g ∈ groupRuns rest) :
    ∃ g' ∈ groupRuns (a :: rest), g'.1 = g.1 ∧ g.2 ≤ g'.2 := by
  cases hr : groupRuns rest with
  | nil => rw [hr] at hg; simp at hg
  | cons hd tl =>
    obtain ⟨c2, n⟩ := hd
    rw [groupRuns_cons_cons a c2 n rest tl hr]
    rw [hr] at hg
    by_cases hac : a = c2
    · rw [if_pos hac]
      rcases List.mem_cons.mp hg with hh | ht
      · subst hh
        exact ⟨(c2, n + 1), List.mem_cons_self _ _, rfl, by omega⟩
      · exact ⟨g, List.mem_cons_of_mem _ ht, rfl, le_rfl⟩
    · rw [if_neg hac]
      exact ⟨g, List.mem_cons_of_mem _ hg, rfl, le_rfl⟩

theorem groups_complete :
    ∀ (l : List Cell) (i m : Nat) (c : Cell), 1 ≤ m →
      (∀ j, j < m → l.get? (i + j) = some c) →
      ∃ g ∈ groupRuns l, g.1 = c ∧ m ≤ g.2 := by
  intro l
  induction l with
  | nil =>
    intro i m c hm hj
    have h0 := hj 0 (by omega)
    simp at h0
  | cons a rest ih =>
    intro i m c hm hj
    cases i with
    | zero =>
      obtain ⟨n, gs, hgr, hmn⟩ := head_run m (a :: rest) c hm (by simpa using hj)
      exact ⟨(c, n), hgr ▸ List.mem_cons_self _ _, rfl, hmn⟩
    | succ i2 =>
      have hj2 : ∀ j, j < m → rest.get? (i2 + j) = some c := by
        intro j hjm
        have hjj := hj j hjm
        simpa [Nat.succ_add] using hjj
      obtain ⟨g, hgmem, hgc, hgm⟩ := ih i2 m c hm hj2
      obtain ⟨g', hg'mem, hg'c, hg'm⟩ := groups_lift a rest g hgmem
      exact ⟨g', hg'mem, hg'c.trans hgc, hgm.trans hg'm⟩

/-! ### Properties of the line walk -/

theorem lineAux_succ_none (bd : Board) (fuel : Nat) (y x d_y d_x : Int)
    (h : cellAt bd y x = none) :
    lineAux bd (fuel + 1) y x d_y d_x = [] := by
  show (match cellAt bd y x with
    | none => []
    | some c => c :: lineAux bd fuel (y + d_y) (x + d_x) d_y d_x) = _
  rw [h]

theorem lineAux_succ_some (bd : Board) (fuel : Nat) (y x d_y d_x : Int)
    (c : Cell) (h : cellAt bd y x = some c) :
    lineAux bd (fuel + 1) y x d_y d_x =
      c :: lineAux bd fuel (y + d_y) (x + d_x) d_y d_x := by
  show (match cellAt bd y x with
    | none => []
    | some c => c :: lineAux bd fuel (y + d_y) (x + d_x) d_y d_x) = _
  rw [h]

theorem lineAux_sound (bd : Board) (d_y d_x : Int) :
    ∀ (fuel : Nat) (y x : Int) (k : Nat) (c : Cell),
      (lineAux bd fuel y x d_y d_x).get? k = some c →
      cellAt bd (y + (k : Int) * d_y) (x + (k : Int) * d_x) = some c := by
  intro fuel
  induction fuel with
  | zero => intro y x k c h; simp [lineAux] at h
  | succ fuel ih =>
    intro y x k c h
    cases hc : cellAt bd y x with
    | none => rw [lineAux_succ_none bd fuel y x d_y d_x hc] at h; simp at h
    | some c0 =>
      rw [lineAux_succ_some bd fuel y x d_y d_x c0 hc] at h
      cases k with
      | zero =>
        have hcc : c0 = c := by simpa using h
        subst hcc
        simpa using hc
      | succ k2 =>
        have h2 : (lineAux bd fuel (y + d_y) (x + d_x) d_y d_x).get? k2 = some c := by
          simpa using h
        have hres := ih (y + d_y) (x + d_x) k2 c h2
        have e1 : y + d_y + (k2 : Int) * d_y = y + ((k2 + 1 : Nat) : Int) * d_y := by
          push_cast
          ring
        have e2 : x + d_x + (k2 : Int) * d_x = x + ((k2 + 1 : Nat) : Int) * d_x := by
          push_cast
          ring
        rw [e1, e2] at hres
        exact hres

theorem lineAux_complete (bd : Board) (d_y d_x : Int) :
    ∀ (fuel : Nat) (y x : Int) (k : Nat),
      (∀ j : Nat, j ≤ k →
        (cellAt bd (y + (j : Int) * d_y) (x + (j : Int) * d_x)).isSome) →
      k < fuel →
      (lineAux bd fuel y x d_y d_x).get? k =
        cellAt bd (y + (k : Int) * d_y) (x + (k : Int) * d_x) := by
  intro fuel
  induction fuel with
  | zero => intro y x k _ hk; omega
  | succ fuel ih =>
    intro y x k hall hk
    have h0 : (cellAt bd y x).isSome := by
      have := hall 0 (by omega)
      simpa using this
    obtain ⟨c0, hc0⟩ := Option.isSome_iff_exists.mp h0
    rw [lineAux_succ_some bd fuel y x d_y d_x c0 hc0]
    cases k with
    | zero => simpa using hc0.symm
    | succ k2 =>
      have hall2 : ∀ j : Nat, j ≤ k2 →
          (cellAt bd (y + d_y + (j : Int) * d_y) (x + d_x + (j : Int) * d_x)).isSome := by
        intro j hj
        have e1 : y + d_y + (j : Int) * d_y = y + ((j + 1 : Nat) : Int) * d_y := by
          push_cast
          ring
        have e2 : x + d_x + (j : Int) * d_x = x + ((j + 1 : Nat) : Int) * d_x := by
          push_cast
          ring
        rw [e1, e2]
        exact hall (j + 1) (by omega)
      have hres := ih (y + d_y) (x + d_x) k2 hall2 (by omega)
      have e1 : y + d_y + (k2 : Int) * d_y = y + ((k2 + 1 : Nat) : Int) * d_y := by
        push_cast
        ring
      have e2 : x + d_x + (k2 : Int) * d_x = x + ((k2 + 1 : Nat) : Int) * d_x := by
        push_cast
        ring
      rw [e1, e2] at hres
      simpa using hres

theorem mem_withEnds :
    ∀ (gs : List (Cell × Nat)) (s : Nat) (e : Cell × Nat × Nat),
      e ∈ withEnds gs s → (e.1, e.2.2) ∈ gs := by
  intro gs
  induction gs with
  | nil => intro s e he; simp [withEnds] at he
  | cons g gs ih =>
    intro s e he
    obtain ⟨c, n⟩ := g
    rcases List.mem_cons.mp he with hh | ht
    · subst hh
      simp
    · exact List.mem_cons_of_mem _ (ih (s + n) e ht)

/-! ### The Run Scanner counts only exact-length maximal runs -/

theorem detect_row_foldl_aux (bd : Board) (col : Cell) (y0 x0 : Int) (L : Nat)
    (d_y d_x : Int) :
    ∀ (es : List (Cell × Nat × Nat)) (acc : Nat × Nat),
      (∀ e ∈ es, ¬(e.1 = col ∧ e.2.2 = L)) →
      es.foldl
        (fun acc g =>
          if g.1 = col ∧ g.2.2 = L then
            let r := is_bounded bd (y0 + (g.2.1 : Int) * d_y)
              (x0 + (g.2.1 : Int) * d_x) L d_y d_x
            if r = "OPEN" then (acc.1 + 1, acc.2)
            else if r = "SEMIOPEN" then (acc.1, acc.2 + 1)
            else acc
          else acc)
        acc = acc := by
  intro es
  induction es with
  | nil => intro acc _; rfl
  | cons e es ih =>
    intro acc h
    rw [List.foldl_cons, if_neg (h e (List.mem_cons_self _ _))]
    exact ih acc fun e2 he2 => h e2 (List.mem_cons_of_mem _ he2)

theorem detect_row_zero (bd : Board) (col : Cell) (y0 x0 : Int) (L : Nat)
    (d_y d_x : Int)
    (h : ∀ g ∈ groupRuns (lineCells bd y0 x0 d_y d_x), ¬(g.1 = col ∧ g.2 = L)) :
    detect_row bd col y0 x0 L d_y d_x = (0, 0) := by
  unfold detect_row
  exact detect_row_foldl_aux bd col y0 x0 L d_y d_x _ (0, 0)
    fun e he => h (e.1, e.2.2) (mem_withEnds _ 0 e he)

/-! ### Concrete boards mirroring the repository's tests -/

/-- Board of `test_is_bounded_open_semi_closed`: three white stones at
`(1,5)…(3,5)`. -/
def bOpen3 : Board := put_seq_on_board (make_empty_board 8) 1 5 1 0 3 Cell.white

/-- Same with a black stone at `(0,5)`. -/
def bSemi3 : Board := placeStone bOpen3 0 5 Cell.black

/-- Same with black stones at `(0,5)` and `(4,5)`. -/
def bClosed3 : Board := placeStone bSemi3 4 5 Cell.black

/-- Board of `test_diagonal_from_top_edge_to_right_edge`: three black
stones at `(0,5)`, `(1,6)`, `(2,7)`. -/
def bDiagTR : Board := put_seq_on_board (make_empty_board 8) 0 5 1 1 3 Cell.black

/-- Board of `test_blocked_by_same_color`: a maximal black run of length 4
at `(3,2)…(3,5)`. -/
def bRun4 : Board :=
  placeStone (put_seq_on_board (make_empty_board 8) 3 2 0 1 3 Cell.black) 3 5 Cell.black

/-- Board of `test_detect_row_entire_row_filled`: a full row of 8 black
stones. -/
def bRow8 : Board := put_seq_on_board (make_empty_board 8) 0 0 0 1 8 Cell.black

/-- A 5×5 board with five black stones down column 0. -/
def bFive : Board := put_seq_on_board (make_empty_board 5) 0 0 1 0 5 Cell.black

/-- A 5×5 board with five white stones along row 2. -/
def wFive : Board := put_seq_on_board (make_empty_board 5) 2 0 0 1 5 Cell.white

/-- A 5×5 board with an open black three at `(2,1)…(2,3)`. -/
def bOpenThree : Board := put_seq_on_board (make_empty_board 5) 2 1 0 1 3 Cell.black

/-- `bOpenThree` with the left flank blocked by white. -/
def bSemiThree : Board := placeStone bOpenThree 2 0 Cell.white

/-- A 3×3 board with a single black stone. -/
def bOneStone : Board := placeStone (make_empty_board 3) 0 0 Cell.black

/-- C2: the run scanner counts only maximal runs of exactly the queried
length: when no maximal run of the queried color has length exactly `L`
on the scanned line, the tally is `(0, 0)`; in particular the maximal run
of length 4 of `test_blocked_by_same_color` yields zero matches at
length 3, and a full row of 8 yields zero matches at length 5 (the
spec's exact-maximal-run rule, which the spec itself notes contradicts
the expectation of `test_detect_row_entire_row_filled`). -/
theorem detect_row_exact_maximal_only :
    (∀ (bd : Board) (col : Cell) (y0 x0 d_y d_x : Int) (L : Nat),
      (∀ i, i ≤ (lineCells bd y0 x0 d_y d_x).length →
        ∀ n, n ≤ (lineCells bd y0 x0 d_y d_x).length →
          MaxRunAt (lineCells bd y0 x0 d_y d_x) col i n → n ≠ L) →
      detect_row bd col y0 x0 L d_y d_x = (0, 0)) ∧
    detect_rows bRun4 Cell.black 3 = (0, 0) ∧
    detect_rows bRow8 Cell.black 5 = (0, 0) := by
  refine ⟨?_, by decide, by decide⟩
  intro bd col y0 x0 d_y d_x L hno
  apply detect_row_zero
  rintro g hg ⟨hgc, hgL⟩
  obtain ⟨i, hmax⟩ := groups_sound _ g hg
  have hfit := hmax.2.1 (g.2 - 1) (by have := hmax.1; omega)
  have hlt := (List.get?_eq_some.mp hfit).1
  have h1 := hmax.1
  refine hno i (by omega) g.2 (by omega) ?_ hgL
  rw [← hgc]
  exact hmax

/-- Witness for C2: the hypothesis holds for row 3 of the concrete
length-4-run board queried at length 3, and the tally there is zero. -/
theorem detect_row_exact_maximal_only_witness :
    (∀ i, i ≤ (lineCells bRun4 3 0 0 1).length →
      ∀ n, n ≤ (lineCells bRun4 3 0 0 1).length →
        MaxRunAt (lineCells bRun4 3 0 0 1) Cell.black i n → n ≠ 3) ∧
    detect_row bRun4 Cell.black 3 0 3 0 1 = (0, 0) :=
  ⟨by decide, detect_row_exact_maximal_only.1 bRun4 Cell.black 3 0 0 1 3 (by decide)⟩

/-! ### The Boundedness Classifier -/

/-- C5: `is_bounded` classifies a run from its two flanking cells
(before-start and after-end): OPEN iff both flanks are free (in range and
empty), CLOSED iff not both free and both blocked (out of range or
opposite color), SEMIOPEN otherwise; a flank that is off the board is
never free, so such a run is never OPEN.  The concrete conjuncts mirror
`test_is_bounded_open_semi_closed` and
`test_diagonal_from_top_edge_to_right_edge`. -/
theorem is_bounded_spec :
    (∀ (bd : Board) (y_end x_end : Int) (len : Nat) (d_y d_x : Int), 1 ≤ len →
      ((is_bounded bd y_end x_end len d_y d_x = "OPEN" ↔
        flank_free bd (y_end - ((len : Int) - 1) * d_y - d_y)
            (x_end - ((len : Int) - 1) * d_x - d_x) = true ∧
          flank_free bd (y_end + d_y) (x_end + d_x) = true) ∧
      (is_bounded bd y_end x_end len d_y d_x = "CLOSED" ↔
        ¬(flank_free bd (y_end - ((len : Int) - 1) * d_y - d_y)
            (x_end - ((len : Int) - 1) * d_x - d_x) = true ∧
          flank_free bd (y_end + d_y) (x_end + d_x) = true) ∧
        (flank_blocked bd (runColor bd y_end x_end)
            (y_end - ((len : Int) - 1) * d_y - d_y)
            (x_end - ((len : Int) - 1) * d_x - d_x) = true ∧
          flank_blocked bd (runColor bd y_end x_end)
            (y_end + d_y) (x_end + d_x) = true)) ∧
      (is_bounded bd y_end x_end len d_y d_x = "SEMIOPEN" ↔
        ¬(flank_free bd (y_end - ((len : Int) - 1) * d_y - d_y)
            (x_end - ((len : Int) - 1) * d_x - d_x) = true ∧
          flank_free bd (y_end + d_y) (x_end + d_x) = true) ∧
        ¬(flank_blocked bd (runColor bd y_end x_end)
            (y_end - ((len : Int) - 1) * d_y - d_y)
            (x_end - ((len : Int) - 1) * d_x - d_x) = true ∧
          flank_blocked bd (runColor bd y_end x_end)
            (y_end + d_y) (x_end + d_x) = true)) ∧
      ((inBoardB bd (y_end - ((len : Int) - 1) * d_y - d_y)
            (x_end - ((len : Int) - 1) * d_x - d_x) = false ∨
          inBoardB bd (y_end + d_y) (x_end + d_x) = false) →
        is_bounded bd y_end x_end len d_y d_x ≠ "OPEN"))) ∧
    is_bounded bOpen3 3 5 3 1 0 = "OPEN" ∧
    is_bounded bSemi3 3 5 3 1 0 = "SEMIOPEN" ∧
    is_bounded bClosed3 3 5 3 1 0 = "CLOSED" ∧
    is_bounded bDiagTR 2 7 3 1 1 = "CLOSED" := by
  refine ⟨?_, by decide, by decide, by decide, by decide⟩
  intro bd y_end x_end len d_y d_x _
  simp only [is_bounded]
  by_cases hf : flank_free bd (y_end - ((len : Int) - 1) * d_y - d_y)
      (x_end - ((len : Int) - 1) * d_x - d_x) = true ∧
      flank_free bd (y_end + d_y) (x_end + d_x) = true
  · have hb : (flank_free bd (y_end - ((len : Int) - 1) * d_y - d_y)
        (x_end - ((len : Int) - 1) * d_x - d_x) &&
        flank_free bd (y_end + d_y) (x_end + d_x)) = true := by
      rw [Bool.and_eq_true]
      exact hf
    rw [if_pos hb]
    refine ⟨iff_of_true rfl hf, ?_, ?_, ?_⟩
    · exact iff_of_false (by decide) fun h => h.1 hf
    · exact iff_of_false (by decide) fun h => h.1 hf
    · intro hedge
      rcases hedge with h | h
      · have := hf.1
        unfold flank_free at this
        rw [Bool.and_eq_true] at this
        rw [h] at this
        exact absurd this.1 (by decide)
      · have := hf.2
        unfold flank_free at this
        rw [Bool.and_eq_true] at this
        rw [h] at this
        exact absurd this.1 (by decide)
  · have hb : (flank_free bd (y_end - ((len : Int) - 1) * d_y - d_y)
        (x_end - ((len : Int) - 1) * d_x - d_x) &&
        flank_free bd (y_end + d_y) (x_end + d_x)) ≠ true := by
      simp only [ne_eq, Bool.and_eq_true]
      exact hf
    rw [if_neg hb]
    by_cases hk : flank_blocked bd (runColor bd y_end x_end)
        (y_end - ((len : Int) - 1) * d_y - d_y)
        (x_end - ((len : Int) - 1) * d_x - d_x) = true ∧
        flank_blocked bd (runColor bd y_end x_end)
          (y_end + d_y) (x_end + d_x) = true
    · have hb2 : (flank_blocked bd (runColor bd y_end x_end)
          (y_end - ((len : Int) - 1) * d_y - d_y)
          (x_end - ((len : Int) - 1) * d_x - d_x) &&
          flank_blocked bd (runColor bd y_end x_end)
            (y_end + d_y) (x_end + d_x)) = true := by
        rw [Bool.and_eq_true]
        exact hk
      rw [if_pos hb2]
      refine ⟨iff_of_false (by decide) fun h => hf h, ?_, ?_, fun _ => by decide⟩
      · exact iff_of_true rfl ⟨hf, hk⟩
      · exact iff_of_false (by decide) fun h => h.2 hk
    · have hb2 : (flank_blocked bd (runColor bd y_end x_end)
          (y_end - ((len : Int) - 1) * d_y - d_y)
          (x_end - ((len : Int) - 1) * d_x - d_x) &&
          flank_blocked bd (runColor bd y_end x_end)
            (y_end + d_y) (x_end + d_x)) ≠ true := by
        simp only [ne_eq, Bool.and_eq_true]
        exact hk
      rw [if_neg hb2]
      refine ⟨iff_of_false (by decide) fun h => hf h, ?_, ?_, fun _ => by decide⟩
      · exact iff_of_false (by decide) fun h => hk h.2
      · exact iff_of_true rfl ⟨hf, hk⟩

/-- Witness for C5: the classifier characterization applied to the
concrete open vertical three of the tests. -/
theorem is_bounded_spec_witness :
    (1 ≤ 3) ∧
    (is_bounded bOpen3 3 5 3 1 0 = "OPEN" ↔
      flank_free bOpen3 (3 - ((3 : Int) - 1) * 1 - 1) (5 - ((3 : Int) - 1) * 0 - 0) = true ∧
        flank_free bOpen3 (3 + 1) (5 + 0) = true) :=
  ⟨by decide, ((is_bounded_spec.1 bOpen3 3 5 3 1 0 (by decide)).1)⟩

/-! ### C9: totality over well-typed inputs -/

theorem detect_rows_zero_of_rows (bd : Board) (col : Cell) (L : Nat)
    (h : ∀ s ∈ scanStarts bd.length, detect_row bd col s.y s.x L s.dy s.dx = (0, 0)) :
    detect_rows bd col L = (0, 0) := by
  unfold detect_rows
  have haux : ∀ (ss : List Line) (acc : Nat × Nat),
      (∀ s ∈ ss, detect_row bd col s.y s.x L s.dy s.dx = (0, 0)) →
      ss.foldl (fun acc s =>
        let r := detect_row bd col s.y s.x L s.dy s.dx
        (acc.1 + r.1, acc.2 + r.2)) acc = acc := by
    intro ss
    induction ss with
    | nil => intro acc _; rfl
    | cons s ss ih =>
      intro acc hss
      rw [List.foldl_cons]
      have hs := hss s (List.mem_cons_self _ _)
      simp only [hs]
      exact ih acc fun s2 hs2 => hss s2 (List.mem_cons_of_mem _ hs2)
  exact haux _ (0, 0) h

/-- C9: the core functions are total over well-typed inputs: the
classifier always returns one of the three classifications, the outcome
detector one of the four verdicts, a zero queried length degenerates to a
`(0, 0)` tally for both the line scanner and the board scanner, and an
out-of-range flank coordinate is treated as blocked rather than as an
error. -/
theorem core_functions_total :
    ∀ (bd : Board) (col : Cell) (y0 x0 : Int) (d_y d_x : Int) (y x : Int) (len : Nat),
      (is_bounded bd y x len d_y d_x = "OPEN" ∨
        is_bounded bd y x len d_y d_x = "SEMIOPEN" ∨
        is_bounded bd y x len d_y d_x = "CLOSED") ∧
      detect_row bd col y0 x0 0 d_y d_x = (0, 0) ∧
      detect_rows bd col 0 = (0, 0) ∧
      (is_win bd = "Black won" ∨ is_win bd = "White won" ∨ is_win bd = "Draw" ∨
        is_win bd = "Continue playing") ∧
      (inBoardB bd y x = false → flank_blocked bd col y x = true) := by
  intro bd col y0 x0 d_y d_x y x len
  have hrow0 : ∀ (ya xa da db : Int), detect_row bd col ya xa 0 da db = (0, 0) := by
    intro ya xa da db
    apply detect_row_zero
    rintro g hg ⟨_, hgL⟩
    have := groupRuns_pos _ g hg
    omega
  refine ⟨?_, hrow0 y0 x0 d_y d_x, ?_, ?_, ?_⟩
  · unfold is_bounded
    by_cases h1 : (flank_free bd (y - ((len : Int) - 1) * d_y - d_y)
        (x - ((len : Int) - 1) * d_x - d_x) &&
        flank_free bd (y + d_y) (x + d_x)) = true
    · rw [if_pos h1]; left; rfl
    · rw [if_neg h1]
      by_cases h2 : (flank_blocked bd (runColor bd y x)
          (y - ((len : Int) - 1) * d_y - d_y)
          (x - ((len : Int) - 1) * d_x - d_x) &&
          flank_blocked bd (runColor bd y x) (y + d_y) (x + d_x)) = true
      · rw [if_pos h2]; right; right; rfl
      · rw [if_neg h2]; right; left; rfl
  · exact detect_rows_zero_of_rows bd col 0 fun s _ => hrow0 s.y s.x s.dy s.dx
  · unfold is_win
    by_cases h1 : hasRunAtLeast bd Cell.black 5 = true
    · rw [if_pos h1]; left; rfl
    · rw [if_neg h1]
      by_cases h2 : hasRunAtLeast bd Cell.white 5 = true
      · rw [if_pos h2]; right; left; rfl
      · rw [if_neg h2]
        by_cases h3 : noEmptyCell bd = true
        · rw [if_pos h3]; right; right; left; rfl
        · rw [if_neg h3]; right; right; right; rfl
  · intro hout
    unfold flank_blocked
    rw [hout]
    rfl

/-- Witness for C9: the off-board flank of a run ending on the top edge
of the one-stone board is treated as blocked. -/
theorem core_functions_total_witness :
    inBoardB bOneStone (-1) 0 = false ∧
      flank_blocked bOneStone Cell.black (-1) 0 = true :=
  ⟨by decide,
    (core_functions_total bOneStone Cell.black 0 0 0 1 (-1) 0 1).2.2.2.2 (by decide)⟩

/-! ### C6: the Move Selector's returned cell -/

theorem cellAt_natCast (bd : Board) (y x : Nat) :
    cellAt bd (y : Int) (x : Int) = (bd.get? y).bind fun row => row.get? x := by
  unfold cellAt
  rw [if_pos ⟨Int.natCast_nonneg y, Int.natCast_nonneg x⟩]
  simp only [Int.toNat_natCast]
  cases bd.get? y <;> rfl

theorem mem_rowMajor (bd : Board) (y x : Nat) :
    (y, x) ∈ rowMajor bd ↔ ∃ row, bd.get? y = some row ∧ x < row.length := by
  unfold rowMajor
  rw [List.mem_flatMap]
  constructor
  · rintro ⟨p, hp, hmem⟩
    rw [List.mem_enum_iff_get?] at hp
    simp only [List.mem_map, List.mem_range] at hmem
    obtain ⟨x2, hx2, hpx⟩ := hmem
    obtain ⟨hpy, hpxx⟩ := Prod.mk.injEq .. ▸ hpx
    exact ⟨p.2, by rw [← hpy]; exact hp, by omega⟩
  · rintro ⟨row, hrow, hx⟩
    refine ⟨(y, row), ?_, ?_⟩
    · rw [List.mem_enum_iff_get?]
      exact hrow
    · simp only [List.mem_map, List.mem_range]
      exact ⟨x, hx, rfl⟩

theorem noEmptyCell_iff (bd : Board) :
    noEmptyCell bd = true ↔
      ∀ p ∈ rowMajor bd, cellAt bd (p.1 : Int) (p.2 : Int) ≠ some Cell.empty := by
  unfold noEmptyCell
  rw [List.all_eq_true]
  constructor
  · intro h p hp
    obtain ⟨row, hrow, hx⟩ := (mem_rowMajor bd p.1 p.2).mp hp
    rw [cellAt_natCast, hrow]
    simp only [Option.some_bind]
    intro hsome
    have hmem : Cell.empty ∈ row := List.mem_iff_get?.mpr ⟨p.2, hsome⟩
    have hrr : row ∈ bd := List.mem_iff_get?.mpr ⟨p.1, hrow⟩
    have hbad := (List.all_eq_true.mp (h row hrr)) Cell.empty hmem
    exact absurd rfl (of_decide_eq_true hbad)
  · intro h row hrow
    rw [List.all_eq_true]
    intro c hc
    obtain ⟨y, hy⟩ := List.mem_iff_get?.mp hrow
    obtain ⟨x, hx⟩ := List.mem_iff_get?.mp hc
    have hxlt : x < row.length := (List.get?_eq_some.mp hx).1
    have hpm : (y, x) ∈ rowMajor bd := (mem_rowMajor bd y x).mpr ⟨row, hy, hxlt⟩
    have hcell := h (y, x) hpm
    rw [cellAt_natCast, hy] at hcell
    simp only [Option.some_bind] at hcell
    rw [hx] at hcell
    simp only [ne_eq, Option.some.injEq] at hcell
    simpa using hcell

theorem searchStep_eq (best : Option (Nat × Nat × Int)) (bd : Board) (p : Nat × Nat) :
    searchStep (best, bd) p =
      if cellAt bd (p.1 : Int) (p.2 : Int) = some Cell.empty then
        ((match best with
          | none => some (p.1, p.2, score (placeStone bd p.1 p.2 Cell.black))
          | some (by_, bx, bs) =>
            if bs < score (placeStone bd p.1 p.2 Cell.black) then
              some (p.1, p.2, score (placeStone bd p.1 p.2 Cell.black))
            else some (by_, bx, bs)),
         placeStone (placeStone bd p.1 p.2 Cell.black) p.1 p.2 Cell.empty)
      else (best, bd) := rfl

theorem searchFold_spec (bd : Board) :
    ∀ (ps : List (Nat × Nat)) (best : Option (Nat × Nat × Int)),
      (∀ a b s, best = some (a, b, s) →
        cellAt bd (a : Int) (b : Int) = some Cell.empty) →
      (∀ a b s, (ps.foldl searchStep (best, bd)).1 = some (a, b, s) →
          cellAt bd (a : Int) (b : Int) = some Cell.empty) ∧
      ((ps.foldl searchStep (best, bd)).1 = none ↔
        (best = none ∧
          ∀ p ∈ ps, cellAt bd (p.1 : Int) (p.2 : Int) ≠ some Cell.empty)) := by
  intro ps
  induction ps with
  | nil =>
    intro best hbest
    refine ⟨fun a b s h => hbest a b s h, ?_⟩
    simp
  | cons p ps ih =>
    intro best hbest
    rw [List.foldl_cons]
    have hstep2 : (searchStep (best, bd) p).2 = bd := searchStep_board (best, bd) p
    have hsplit : searchStep (best, bd) p = ((searchStep (best, bd) p).1, bd) :=
      Prod.ext_iff.mpr ⟨rfl, hstep2⟩
    rw [hsplit]
    by_cases hc : cellAt bd (p.1 : Int) (p.2 : Int) = some Cell.empty
    · have hP : ∀ a b s, (searchStep (best, bd) p).1 = some (a, b, s) →
          cellAt bd (a : Int) (b : Int) = some Cell.empty := by
        intro a b s h
        rw [searchStep_eq, if_pos hc] at h
        cases best with
        | none =>
          simp only [Option.some.injEq, Prod.mk.injEq] at h
          obtain ⟨ha, hb, _⟩ := h
          rw [← ha, ← hb]
          exact hc
        | some v =>
          obtain ⟨va, vb, vs⟩ := v
          simp only at h
          by_cases hlt : vs < score (placeStone bd p.1 p.2 Cell.black)
          · rw [if_pos hlt] at h
            simp only [Option.some.injEq, Prod.mk.injEq] at h
            obtain ⟨ha, hb, _⟩ := h
            rw [← ha, ← hb]
            exact hc
          · rw [if_neg hlt] at h
            simp only [Option.some.injEq, Prod.mk.injEq] at h
            obtain ⟨ha, hb, _⟩ := h
            rw [← ha, ← hb]
            exact hbest va vb vs rfl
      have hN : (searchStep (best, bd) p).1 ≠ none := by
        rw [searchStep_eq, if_pos hc]
        cases best with
        | none => simp
        | some v =>
          obtain ⟨va, vb, vs⟩ := v
          simp only
          by_cases hlt : vs < score (placeStone bd p.1 p.2 Cell.black)
          · rw [if_pos hlt]; simp
          · rw [if_neg hlt]; simp
      obtain ⟨ihP, ihN⟩ := ih (searchStep (best, bd) p).1 hP
      refine ⟨ihP, ?_⟩
      rw [ihN]
      constructor
      · rintro ⟨hnone, _⟩
        exact absurd hnone hN
      · rintro ⟨_, hall⟩
        exact absurd hc (hall p (List.mem_cons_self _ _))
    · have heq : (searchStep (best, bd) p).1 = best := by
        rw [searchStep_eq, if_neg hc]
      rw [heq]
      obtain ⟨ihP, ihN⟩ := ih best hbest
      refine ⟨ihP, ?_⟩
      rw [ihN]
      constructor
      · rintro ⟨hbn, hall⟩
        refine ⟨hbn, fun q hq => ?_⟩
        rcases List.mem_cons.mp hq with hh | ht
        · subst hh; exact hc
        · exact hall q ht
      · rintro ⟨hbn, hall⟩
        exact ⟨hbn, fun q hq => hall q (List.mem_cons_of_mem _ hq)⟩

/-- C6: the Move Selector returns the no-move answer exactly on a
completely empty board or a board with no empty cell; on every other
board it returns the coordinate of an empty cell. -/
theorem search_max_none_or_empty_cell :
    ∀ bd : Board,
      ((is_empty bd = true ∨ noEmptyCell bd = true) → search_max bd = none) ∧
      (is_empty bd = false → noEmptyCell bd = false →
        ∃ y x, search_max bd = some (y, x) ∧
          cellAt bd (y : Int) (x : Int) = some Cell.empty) := by
  intro bd
  constructor
  · intro h
    by_cases he : is_empty bd
    · unfold search_max searchMaxSt
      rw [if_pos he]
    · have hfull : noEmptyCell bd = true := by
        rcases h with h | h
        · exact absurd h he
        · exact h
      unfold search_max searchMaxSt
      rw [if_neg he]
      obtain ⟨_, hiffn⟩ := searchFold_spec bd (rowMajor bd) none (by simp)
      have hn : ((rowMajor bd).foldl searchStep (none, bd)).1 = none :=
        hiffn.mpr ⟨rfl, (noEmptyCell_iff bd).mp hfull⟩
      simp only [hn]
  · intro he hfull
    unfold search_max searchMaxSt
    rw [if_neg (by simp [he])]
    obtain ⟨hP, hiffn⟩ := searchFold_spec bd (rowMajor bd) none (by simp)
    cases hr : ((rowMajor bd).foldl searchStep (none, bd)).1 with
    | none =>
      obtain ⟨_, hall⟩ := hiffn.mp hr
      exact absurd ((noEmptyCell_iff bd).mpr hall) (by simp [hfull])
    | some v =>
      obtain ⟨vy, vx, vs⟩ := v
      refine ⟨vy, vx, ?_, hP vy vx vs hr⟩
      simp only [hr]

/-- Witness for C6: the empty board yields the no-move answer, and the
one-stone board yields an empty cell. -/
theorem search_max_none_or_empty_cell_witness :
    (is_empty (make_empty_board 8) = true ∨ noEmptyCell (make_empty_board 8) = true) ∧
    search_max (make_empty_board 8) = none ∧
    is_empty bOneStone = false ∧ noEmptyCell bOneStone = false ∧
    (∃ y x, search_max bOneStone = some (y, x) ∧
      cellAt bOneStone (y : Int) (x : Int) = some Cell.empty) :=
  ⟨Or.inl (by decide),
    (search_max_none_or_empty_cell (make_empty_board 8)).1 (Or.inl (by decide)),
    by decide, by decide,
    (search_max_none_or_empty_cell bOneStone).2 (by decide) (by decide)⟩

/-! ### Board well-formedness and cell bounds -/

theorem wf_row_length (bd : Board) (hwf : WFb bd = true) (y : Nat)
    (row : List Cell) (hy : bd.get? y = some row) : row.length = bd.length := by
  unfold WFb at hwf
  rw [List.all_eq_true] at hwf
  have hmem : row ∈ bd := List.mem_iff_get?.mpr ⟨y, hy⟩
  exact of_decide_eq_true (hwf row hmem)

theorem cellAt_some_bounds (bd : Board) (hwf : WFb bd = true) (y x : Int)
    (c : Cell) (h : cellAt bd y x = some c) :
    0 ≤ y ∧ y < (bd.length : Int) ∧ 0 ≤ x ∧ x < (bd.length : Int) := by
  unfold cellAt at h
  by_cases hpos : 0 ≤ y ∧ 0 ≤ x
  · rw [if_pos hpos] at h
    cases hrow : bd.get? y.toNat with
    | none => rw [hrow] at h; simp at h
    | some row =>
      rw [hrow] at h
      have hylt : y.toNat < bd.length := (List.get?_eq_some.mp hrow).1
      have hxlt : x.toNat < row.length := (List.get?_eq_some.mp h).1
      have hrl : row.length = bd.length := wf_row_length bd hwf y.toNat row hrow
      refine ⟨hpos.1, ?_, hpos.2, ?_⟩ <;> omega
  · rw [if_neg hpos] at h
    simp at h

theorem cellAt_isSome_of_lt (bd : Board) (hwf : WFb bd = true) (y x : Int)
    (hy0 : 0 ≤ y) (hyN : y < (bd.length : Int)) (hx0 : 0 ≤ x)
    (hxN : x < (bd.length : Int)) : (cellAt bd y x).isSome = true := by
  unfold cellAt
  rw [if_pos ⟨hy0, hx0⟩]
  cases hrow : bd.get? y.toNat with
  | none =>
    have := List.get?_eq_none.mp hrow
    omega
  | some row =>
    cases hcell : row.get? x.toNat with
    | none =>
      have hlen := List.get?_eq_none.mp hcell
      have hrl : row.length = bd.length := wf_row_length bd hwf y.toNat row hrow
      omega
    | some c =>
      show (row.get? x.toNat).isSome = true
      rw [hcell]
      rfl

/-! ### Membership in the canonical line enumeration -/

theorem scanStarts_mem_row (N : Nat) (a : Int) (ha0 : 0 ≤ a)
    (haN : a < (N : Int)) : (⟨a, 0, 0, 1⟩ : Line) ∈ scanStarts N := by
  unfold scanStarts
  simp only [List.mem_append, List.mem_map, List.mem_range]
  refine Or.inl (Or.inl (Or.inl (Or.inl (Or.inl ⟨a.toNat, by omega, ?_⟩))))
  simp [Line.mk.injEq, Int.toNat_of_nonneg ha0]

theorem scanStarts_mem_col (N : Nat) (b : Int) (hb0 : 0 ≤ b)
    (hbN : b < (N : Int)) : (⟨0, b, 1, 0⟩ : Line) ∈ scanStarts N := by
  unfold scanStarts
  simp only [List.mem_append, List.mem_map, List.mem_range]
  refine Or.inl (Or.inl (Or.inl (Or.inl (Or.inr ⟨b.toNat, by omega, ?_⟩))))
  simp [Line.mk.injEq, Int.toNat_of_nonneg hb0]

theorem scanStarts_mem_dr_top (N : Nat) (b : Int) (hb0 : 0 ≤ b)
    (hbN : b < (N : Int)) : (⟨0, b, 1, 1⟩ : Line) ∈ scanStarts N := by
  unfold scanStarts
  simp only [List.mem_append, List.mem_map, List.mem_range]
  refine Or.inl (Or.inl (Or.inl (Or.inr ⟨b.toNat, by omega, ?_⟩)))
  simp [Line.mk.injEq, Int.toNat_of_nonneg hb0]

theorem scanStarts_mem_dr_left (N : Nat) (a : Int) (ha0 : 0 ≤ a)
    (haN : a < (N : Int)) : (⟨a, 0, 1, 1⟩ : Line) ∈ scanStarts N := by
  by_cases ha1 : a = 0
  · subst ha1
    exact scanStarts_mem_dr_top N 0 le_rfl (by omega)
  · unfold scanStarts
    simp only [List.mem_append, List.mem_map, List.mem_range]
    refine Or.inl (Or.inl (Or.inr ⟨(a - 1).toNat, by omega, ?_⟩))
    simp only [Line.mk.injEq]
    exact ⟨by omega, trivial, trivial, trivial⟩

theorem scanStarts_mem_dl_top (N : Nat) (b : Int) (hb0 : 0 ≤ b)
    (hbN : b < (N : Int)) : (⟨0, b, 1, -1⟩ : Line) ∈ scanStarts N := by
  unfold scanStarts
  simp only [List.mem_append, List.mem_map, List.mem_range]
  refine Or.inl (Or.inr ⟨b.toNat, by omega, ?_⟩)
  simp [Line.mk.injEq, Int.toNat_of_nonneg hb0]

theorem scanStarts_mem_dl_right (N : Nat) (a : Int) (ha0 : 0 ≤ a)
    (haN : a < (N : Int)) : (⟨a, (N : Int) - 1, 1, -1⟩ : Line) ∈ scanStarts N := by
  by_cases ha1 : a = 0
  · subst ha1
    exact scanStarts_mem_dl_top N ((N : Int) - 1) (by omega) (by omega)
  · unfold scanStarts
    simp only [List.mem_append, List.mem_map, List.mem_range]
    refine Or.inr ⟨(a - 1).toNat, by omega, ?_⟩
    simp only [Line.mk.injEq]
    exact ⟨by omega, trivial, trivial, trivial⟩

theorem scanStarts_dirs (N : Nat) (s : Line) (hs : s ∈ scanStarts N) :
    (s.dy, s.dx) ∈ canonDirs := by
  unfold scanStarts at hs
  simp only [List.mem_append, List.mem_map, List.mem_range] at hs
  rcases hs with ((((h | h) | h) | h) | h) | h <;>
    · obtain ⟨i, _, hi⟩ := h
      rw [← hi]
      simp [canonDirs]

/-! ### Existence of runs versus the board scan -/

theorem hasRun_of_segment (bd : Board) (col : Cell) (n : Nat) (hn : 1 ≤ n)
    (s : Line) (hs : s ∈ scanStarts bd.length) (t : Nat)
    (hbound : t + n ≤ bd.length)
    (hin : ∀ j : Nat, j ≤ t + (n - 1) →
      (cellAt bd (s.y + (j : Int) * s.dy) (s.x + (j : Int) * s.dx)).isSome)
    (hc : ∀ k : Nat, k < n →
      cellAt bd (s.y + ((t + k : Nat) : Int) * s.dy)
        (s.x + ((t + k : Nat) : Int) * s.dx) = some col) :
    hasRunAtLeast bd col n = true := by
  unfold hasRunAtLeast
  rw [List.any_eq_true]
  refine ⟨s, hs, ?_⟩
  rw [List.any_eq_true]
  have hcellline : ∀ k : Nat, k < n →
      (lineCells bd s.y s.x s.dy s.dx).get? (t + k) = some col := by
    intro k hk
    unfold lineCells
    rw [lineAux_complete bd s.dy s.dx (bd.length + 1) s.y s.x (t + k)
      (fun j hj => hin j (by omega)) (by omega)]
    exact hc k hk
  obtain ⟨g, hg, hgc, hgn⟩ := groups_complete _ t n col hn hcellline
  refine ⟨g, hg, ?_⟩
  rw [Bool.and_eq_true, decide_eq_true_eq, decide_eq_true_eq]
  exact ⟨hgc, hgn⟩

theorem hasRun_sound (bd : Board) (col : Cell) (n : Nat) (_hn : 1 ≤ n)
    (h : hasRunAtLeast bd col n = true) : HasRun bd col n := by
  unfold hasRunAtLeast at h
  rw [List.any_eq_true] at h
  obtain ⟨s, hs, hinner⟩ := h
  rw [List.any_eq_true] at hinner
  obtain ⟨g, hg, hgprop⟩ := hinner
  rw [Bool.and_eq_true, decide_eq_true_eq, decide_eq_true_eq] at hgprop
  obtain ⟨hgc, hgn⟩ := hgprop
  obtain ⟨i, _, hrun, _, _⟩ := groups_sound _ g hg
  refine ⟨(s.dy, s.dx), scanStarts_dirs bd.length s hs,
    s.y + (i : Int) * s.dy, s.x + (i : Int) * s.dx, ?_⟩
  intro k hk
  have hgot : (lineCells bd s.y s.x s.dy s.dx).get? (i + k) = some col := by
    have hh := hrun k (by omega)
    rw [hgc] at hh
    exact hh
  have hcell := lineAux_sound bd s.dy s.dx (bd.length + 1) s.y s.x (i + k) col hgot
  have e1 : s.y + ((i + k : Nat) : Int) * s.dy =
      s.y + (i : Int) * s.dy + (k : Int) * s.dy := by
    push_cast
    ring
  have e2 : s.x + ((i + k : Nat) : Int) * s.dx =
      s.x + (i : Int) * s.dx + (k : Int) * s.dx := by
    push_cast
    ring
  rw [e1, e2] at hcell
  exact hcell

theorem cellAt_congr (bd : Board) (a b a' b' : Int) (c : Cell)
    (h : cellAt bd a b = some c) (ea : a' = a) (eb : b' = b) :
    cellAt bd a' b' = some c := by
  rw [ea, eb]
  exact h

theorem hasRun_complete (bd : Board) (col : Cell) (n : Nat)
    (hwf : WFb bd = true) (hn : 1 ≤ n) (h : HasRun bd col n) :
    hasRunAtLeast bd col n = true := by
  obtain ⟨d, hd, y, x, hcells⟩ := h
  obtain ⟨dy, dx⟩ := d
  simp only [canonDirs, List.mem_cons, List.not_mem_nil, or_false,
    Prod.mk.injEq] at hd
  obtain ⟨h01, h02, h03, h04⟩ :=
    cellAt_some_bounds bd hwf _ _ col (hcells 0 (by omega))
  obtain ⟨hl1, hl2, hl3, hl4⟩ :=
    cellAt_some_bounds bd hwf _ _ col (hcells (n - 1) (by omega))
  rcases hd with ⟨hdy, hdx⟩ | ⟨hdy, hdx⟩ | ⟨hdy, hdx⟩ | ⟨hdy, hdx⟩ <;>
    subst hdy <;> subst hdx
  · -- horizontal (0, 1)
    refine hasRun_of_segment bd col n hn ⟨y, 0, 0, 1⟩
      (scanStarts_mem_row bd.length y (by omega) (by omega)) x.toNat
      (by omega) ?_ ?_
    · intro j hj
      show (cellAt bd (y + (j : Int) * 0) (0 + (j : Int) * 1)).isSome = true
      have e1 : y + (j : Int) * 0 = y := by ring
      have e2 : 0 + (j : Int) * 1 = (j : Int) := by ring
      rw [e1, e2]
      exact cellAt_isSome_of_lt bd hwf y j (by omega) (by omega) (by omega)
        (by omega)
    · intro k hk
      show cellAt bd (y + ((x.toNat + k : Nat) : Int) * 0)
        (0 + ((x.toNat + k : Nat) : Int) * 1) = some col
      exact cellAt_congr bd (y + (k : Int) * 0) (x + (k : Int) * 1) _ _ col
        (hcells k hk) (by omega) (by omega)
  · -- vertical (1, 0)
    refine hasRun_of_segment bd col n hn ⟨0, x, 1, 0⟩
      (scanStarts_mem_col bd.length x (by omega) (by omega)) y.toNat
      (by omega) ?_ ?_
    · intro j hj
      show (cellAt bd (0 + (j : Int) * 1) (x + (j : Int) * 0)).isSome = true
      have e1 : 0 + (j : Int) * 1 = (j : Int) := by ring
      have e2 : x + (j : Int) * 0 = x := by ring
      rw [e1, e2]
      exact cellAt_isSome_of_lt bd hwf j x (by omega) (by omega) (by omega)
        (by omega)
    · intro k hk
      show cellAt bd (0 + ((y.toNat + k : Nat) : Int) * 1)
        (x + ((y.toNat + k : Nat) : Int) * 0) = some col
      exact cellAt_congr bd (y + (k : Int) * 1) (x + (k : Int) * 0) _ _ col
        (hcells k hk) (by omega) (by omega)
  · -- down-right (1, 1)
    by_cases hxy : x ≤ y
    · refine hasRun_of_segment bd col n hn ⟨y - x, 0, 1, 1⟩
        (scanStarts_mem_dr_left bd.length (y - x) (by omega) (by omega)) x.toNat
        (by omega) ?_ ?_
      · intro j hj
        show (cellAt bd (y - x + (j : Int) * 1) (0 + (j : Int) * 1)).isSome = true
        have e1 : y - x + (j : Int) * 1 = y - x + (j : Int) := by ring
        have e2 : 0 + (j : Int) * 1 = (j : Int) := by ring
        rw [e1, e2]
        exact cellAt_isSome_of_lt bd hwf (y - x + (j : Int)) j (by omega)
          (by omega) (by omega) (by omega)
      · intro k hk
        show cellAt bd (y - x + ((x.toNat + k : Nat) : Int) * 1)
          (0 + ((x.toNat + k : Nat) : Int) * 1) = some col
        exact cellAt_congr bd (y + (k : Int) * 1) (x + (k : Int) * 1) _ _ col
          (hcells k hk) (by omega) (by omega)
    · refine hasRun_of_segment bd col n hn ⟨0, x - y, 1, 1⟩
        (scanStarts_mem_dr_top bd.length (x - y) (by omega) (by omega)) y.toNat
        (by omega) ?_ ?_
      · intro j hj
        show (cellAt bd (0 + (j : Int) * 1) (x - y + (j : Int) * 1)).isSome = true
        have e1 : 0 + (j : Int) * 1 = (j : Int) := by ring
        have e2 : x - y + (j : Int) * 1 = x - y + (j : Int) := by ring
        rw [e1, e2]
        exact cellAt_isSome_of_lt bd hwf j (x - y + (j : Int)) (by omega)
          (by omega) (by omega) (by omega)
      · intro k hk
        show cellAt bd (0 + ((y.toNat + k : Nat) : Int) * 1)
          (x - y + ((y.toNat + k : Nat) : Int) * 1) = some col
        exact cellAt_congr bd (y + (k : Int) * 1) (x + (k : Int) * 1) _ _ col
          (hcells k hk) (by omega) (by omega)
  · -- down-left (1, -1)
    by_cases hsum : y + x < (bd.length : Int)
    · refine hasRun_of_segment bd col n hn ⟨0, y + x, 1, -1⟩
        (scanStarts_mem_dl_top bd.length (y + x) (by omega) (by omega)) y.toNat
        (by omega) ?_ ?_
      · intro j hj
        show (cellAt bd (0 + (j : Int) * 1) (y + x + (j : Int) * (-1))).isSome = true
        have e1 : 0 + (j : Int) * 1 = (j : Int) := by ring
        have e2 : y + x + (j : Int) * (-1) = y + x - (j : Int) := by ring
        rw [e1, e2]
        exact cellAt_isSome_of_lt bd hwf j (y + x - (j : Int)) (by omega)
          (by omega) (by omega) (by omega)
      · intro k hk
        show cellAt bd (0 + ((y.toNat + k : Nat) : Int) * 1)
          (y + x + ((y.toNat + k : Nat) : Int) * (-1)) = some col
        exact cellAt_congr bd (y + (k : Int) * 1) (x + (k : Int) * (-1)) _ _ col
          (hcells k hk) (by omega) (by omega)
    · refine hasRun_of_segment bd col n hn
        ⟨y + x - ((bd.length : Int) - 1), (bd.length : Int) - 1, 1, -1⟩
        (scanStarts_mem_dl_right bd.length (y + x - ((bd.length : Int) - 1))
          (by omega) (by omega)) ((bd.length : Int) - 1 - x).toNat
        (by omega) ?_ ?_
      · intro j hj
        show (cellAt bd (y + x - ((bd.length : Int) - 1) + (j : Int) * 1)
          ((bd.length : Int) - 1 + (j : Int) * (-1))).isSome = true
        have e1 : y + x - ((bd.length : Int) - 1) + (j : Int) * 1 =
            y + x - (bd.length : Int) + 1 + (j : Int) := by ring
        have e2 : (bd.length : Int) - 1 + (j : Int) * (-1) =
            (bd.length : Int) - 1 - (j : Int) := by ring
        rw [e1, e2]
        exact cellAt_isSome_of_lt bd hwf (y + x - (bd.length : Int) + 1 + (j : Int))
          ((bd.length : Int) - 1 - (j : Int)) (by omega) (by omega) (by omega)
          (by omega)
      · intro k hk
        show cellAt bd (y + x - ((bd.length : Int) - 1) +
            ((((bd.length : Int) - 1 - x).toNat + k : Nat) : Int) * 1)
          ((bd.length : Int) - 1 +
            ((((bd.length : Int) - 1 - x).toNat + k : Nat) : Int) * (-1)) = some col
        exact cellAt_congr bd (y + (k : Int) * 1) (x + (k : Int) * (-1)) _ _ col
          (hcells k hk) (by omega) (by omega)

theorem hasRun_iff (bd : Board) (col : Cell) (n : Nat) (hwf : WFb bd = true)
    (hn : 1 ≤ n) : hasRunAtLeast bd col n = true ↔ HasRun bd col n :=
  ⟨hasRun_sound bd col n hn, hasRun_complete bd col n hwf hn⟩

/-! ### C3: the Outcome Detector -/

/-- C3: `is_win` returns the black-won verdict iff black has a maximal
run of length at least 5 in one of the four orientations; otherwise the
white-won verdict iff white has one (black is checked first, so black
wins when both do); otherwise draw iff the board has no empty cell;
otherwise the continue verdict. -/
theorem is_win_spec :
    ∀ bd : Board, WFb bd = true →
      (is_win bd = "Black won" ↔ HasRun bd Cell.black 5) ∧
      (is_win bd = "White won" ↔
        ¬HasRun bd Cell.black 5 ∧ HasRun bd Cell.white 5) ∧
      (is_win bd = "Draw" ↔
        ¬HasRun bd Cell.black 5 ∧ ¬HasRun bd Cell.white 5 ∧
          noEmptyCell bd = true) ∧
      (is_win bd = "Continue playing" ↔
        ¬HasRun bd Cell.black 5 ∧ ¬HasRun bd Cell.white 5 ∧
          noEmptyCell bd = false) := by
  intro bd hwf
  have hb := hasRun_iff bd Cell.black 5 hwf (by omega)
  have hw := hasRun_iff bd Cell.white 5 hwf (by omega)
  unfold is_win
  by_cases h1 : hasRunAtLeast bd Cell.black 5 = true
  · rw [if_pos h1]
    have hB : HasRun bd Cell.black 5 := hb.mp h1
    exact ⟨iff_of_true rfl hB, iff_of_false (by decide) fun hc => hc.1 hB,
      iff_of_false (by decide) fun hc => hc.1 hB,
      iff_of_false (by decide) fun hc => hc.1 hB⟩
  · rw [if_neg h1]
    have hnB : ¬HasRun bd Cell.black 5 := fun hc => h1 (hb.mpr hc)
    by_cases h2 : hasRunAtLeast bd Cell.white 5 = true
    · rw [if_pos h2]
      have hW : HasRun bd Cell.white 5 := hw.mp h2
      exact ⟨iff_of_false (by decide) fun hc => hnB hc,
        iff_of_true rfl ⟨hnB, hW⟩,
        iff_of_false (by decide) fun hc => hc.2.1 hW,
        iff_of_false (by decide) fun hc => hc.2.1 hW⟩
    · rw [if_neg h2]
      have hnW : ¬HasRun bd Cell.white 5 := fun hc => h2 (hw.mpr hc)
      by_cases h3 : noEmptyCell bd = true
      · rw [if_pos h3]
        exact ⟨iff_of_false (by decide) fun hc => hnB hc,
          iff_of_false (by decide) fun hc => hnW hc.2,
          iff_of_true rfl ⟨hnB, hnW, h3⟩,
          iff_of_false (by decide) fun hc => by
            rw [hc.2.2] at h3
            exact Bool.false_ne_true h3⟩
      · rw [if_neg h3]
        have h3f : noEmptyCell bd = false := by
          revert h3
          cases noEmptyCell bd <;> simp
        exact ⟨iff_of_false (by decide) fun hc => hnB hc,
          iff_of_false (by decide) fun hc => hnW hc.2,
          iff_of_false (by decide) fun hc => h3 hc.2.2,
          iff_of_true rfl ⟨hnB, hnW, h3f⟩⟩

/-- Witness for C3: the five-black-stones board is well-formed and its
verdict characterization is obtained from the theorem. -/
theorem is_win_spec_witness :
    WFb bFive = true ∧ (is_win bFive = "Black won" ↔ HasRun bFive Cell.black 5) :=
  ⟨by decide, (is_win_spec bFive (by decide)).1⟩

/-! ### C4: the Position Evaluator's terminal and neutral values -/

theorem no_pair_group_le_one (bd : Board) (hwf : WFb bd = true)
    (hnp : NoAdjPair bd) (s : Line) (hs : s ∈ scanStarts bd.length)
    (g : Cell × Nat) (hg : g ∈ groupRuns (lineCells bd s.y s.x s.dy s.dx))
    (hcol : g.1 = Cell.black ∨ g.1 = Cell.white) : g.2 ≤ 1 := by
  by_contra hgt
  push_neg at hgt
  obtain ⟨i, _, hrun, _, _⟩ := groups_sound _ g hg
  have ha := hrun 0 (by omega)
  rw [Nat.add_zero] at ha
  have hcA := lineAux_sound bd s.dy s.dx (bd.length + 1) s.y s.x i g.1 ha
  have hbb := hrun 1 (by omega)
  have hcB := lineAux_sound bd s.dy s.dx (bd.length + 1) s.y s.x (i + 1) g.1 hbb
  obtain ⟨b1, b2, b3, b4⟩ := cellAt_some_bounds bd hwf _ _ _ hcA
  have hyA : (((s.y + (i : Int) * s.dy).toNat : Nat) : Int) =
      s.y + (i : Int) * s.dy := Int.toNat_of_nonneg b1
  have hxA : (((s.x + (i : Int) * s.dx).toNat : Nat) : Int) =
      s.x + (i : Int) * s.dx := Int.toNat_of_nonneg b3
  have hylt : (s.y + (i : Int) * s.dy).toNat < bd.length := by
    have : (((s.y + (i : Int) * s.dy).toNat : Nat) : Int) < (bd.length : Int) := by
      rw [hyA]
      exact b2
    exact_mod_cast this
  have hxlt : (s.x + (i : Int) * s.dx).toNat < bd.length := by
    have : (((s.x + (i : Int) * s.dx).toNat : Nat) : Int) < (bd.length : Int) := by
      rw [hxA]
      exact b4
    exact_mod_cast this
  have hmem : g.1 ∈ [Cell.black, Cell.white] := by
    rcases hcol with h | h <;> simp [h]
  have hpair := hnp g.1 hmem (s.dy, s.dx) (scanStarts_dirs bd.length s hs)
    (s.y + (i : Int) * s.dy).toNat hylt (s.x + (i : Int) * s.dx).toNat hxlt
  apply hpair
  constructor
  · rw [hyA, hxA]
    exact hcA
  · rw [hyA, hxA]
    refine cellAt_congr bd (s.y + ((i + 1 : Nat) : Int) * s.dy)
      (s.x + ((i + 1 : Nat) : Int) * s.dx) _ _ g.1 hcB ?_ ?_
    · push_cast
      ring
    · push_cast
      ring

theorem no_pair_not_hasRun (bd : Board) (hwf : WFb bd = true)
    (hnp : NoAdjPair bd) (c : Cell) (hc : c = Cell.black ∨ c = Cell.white)
    (n : Nat) (hn : 2 ≤ n) : hasRunAtLeast bd c n = false := by
  by_contra hbb
  rw [Bool.not_eq_false] at hbb
  unfold hasRunAtLeast at hbb
  rw [List.any_eq_true] at hbb
  obtain ⟨s, hs, hinner⟩ := hbb
  rw [List.any_eq_true] at hinner
  obtain ⟨g, hg, hgprop⟩ := hinner
  rw [Bool.and_eq_true, decide_eq_true_eq, decide_eq_true_eq] at hgprop
  have hle := no_pair_group_le_one bd hwf hnp s hs g hg (by rw [hgprop.1]; exact hc)
  omega

theorem no_pair_detect_rows (bd : Board) (hwf : WFb bd = true)
    (hnp : NoAdjPair bd) (c : Cell) (hc : c = Cell.black ∨ c = Cell.white)
    (L : Nat) (hL : 2 ≤ L) : detect_rows bd c L = (0, 0) := by
  apply detect_rows_zero_of_rows
  intro s hs
  apply detect_row_zero
  rintro g hg ⟨hgc, hgL⟩
  have hle := no_pair_group_le_one bd hwf hnp s hs g hg (by rw [hgc]; exact hc)
  omega

/-- C4: on a black-won verdict the score is exactly +100000, on a
white-won verdict exactly −100000, and on any well-formed board with no
run of two or more same-colored stones in any line (the empty board
included) the score is 0. -/
theorem score_spec :
    ∀ bd : Board,
      (is_win bd = "Black won" → score bd = 100000) ∧
      (is_win bd = "White won" → score bd = -100000) ∧
      (WFb bd = true → NoAdjPair bd → score bd = 0) := by
  intro bd
  refine ⟨?_, ?_, ?_⟩
  · intro h
    unfold is_win at h
    unfold score
    by_cases h1 : hasRunAtLeast bd Cell.black 5 = true
    · rw [if_pos h1]
    · exfalso
      rw [if_neg h1] at h
      by_cases h2 : hasRunAtLeast bd Cell.white 5 = true
      · rw [if_pos h2] at h
        exact absurd h (by decide)
      · rw [if_neg h2] at h
        by_cases h3 : noEmptyCell bd = true
        · rw [if_pos h3] at h
          exact absurd h (by decide)
        · rw [if_neg h3] at h
          exact absurd h (by decide)
  · intro h
    unfold is_win at h
    unfold score
    by_cases h1 : hasRunAtLeast bd Cell.black 5 = true
    · rw [if_pos h1] at h
      exact absurd h (by decide)
    · rw [if_neg h1] at h
      rw [if_neg h1]
      by_cases h2 : hasRunAtLeast bd Cell.white 5 = true
      · rw [if_pos h2]
      · exfalso
        rw [if_neg h2] at h
        by_cases h3 : noEmptyCell bd = true
        · rw [if_pos h3] at h
          exact absurd h (by decide)
        · rw [if_neg h3] at h
          exact absurd h (by decide)
  · intro hwf hnp
    have hb5 := no_pair_not_hasRun bd hwf hnp Cell.black (Or.inl rfl) 5 (by omega)
    have hw5 := no_pair_not_hasRun bd hwf hnp Cell.white (Or.inr rfl) 5 (by omega)
    unfold score
    rw [if_neg (by simp [hb5]), if_neg (by simp [hw5])]
    unfold tallySum colorTerm
    rw [no_pair_detect_rows bd hwf hnp Cell.black (Or.inl rfl) 2 (by omega),
      no_pair_detect_rows bd hwf hnp Cell.white (Or.inr rfl) 2 (by omega),
      no_pair_detect_rows bd hwf hnp Cell.black (Or.inl rfl) 3 (by omega),
      no_pair_detect_rows bd hwf hnp Cell.white (Or.inr rfl) 3 (by omega),
      no_pair_detect_rows bd hwf hnp Cell.black (Or.inl rfl) 4 (by omega),
      no_pair_detect_rows bd hwf hnp Cell.white (Or.inr rfl) 4 (by omega)]
    simp [tallyContrib]

/-- Witness for C4: the concrete winning boards and the empty 3×3 board. -/
theorem score_spec_witness :
    is_win bFive = "Black won" ∧ score bFive = 100000 ∧
    is_win wFive = "White won" ∧ score wFive = -100000 ∧
    WFb (make_empty_board 3) = true ∧ NoAdjPair (make_empty_board 3) ∧
    score (make_empty_board 3) = 0 :=
  ⟨by decide, (score_spec bFive).1 (by decide),
    by decide, (score_spec wFive).2.1 (by decide),
    by decide, by decide,
    (score_spec (make_empty_board 3)).2.2 (by decide) (by decide)⟩

/-! ### C8: OPEN outweighs SEMIOPEN at equal length -/

/-- C8: for lengths 2, 3, 4, turning one OPEN run of a color into a
SEMIOPEN one (all other tallies and the win checks unchanged) strictly
lowers the score's value for black and strictly raises it for white:
an OPEN run is always worth strictly more than an otherwise identical
SEMIOPEN run of the same length. -/
theorem score_open_gt_semiopen :
    ∀ (B B' : Board) (c : Cell) (L o s : Nat),
      (c = Cell.black ∨ c = Cell.white) →
      L ∈ ([2, 3, 4] : List Nat) →
      hasRunAtLeast B Cell.black 5 = false →
      hasRunAtLeast B Cell.white 5 = false →
      hasRunAtLeast B' Cell.black 5 = false →
      hasRunAtLeast B' Cell.white 5 = false →
      (∀ c' ∈ [Cell.black, Cell.white], ∀ L' ∈ ([2, 3, 4] : List Nat),
        ¬(c' = c ∧ L' = L) → detect_rows B c' L' = detect_rows B' c' L') →
      detect_rows B c L = (o + 1, s) →
      detect_rows B' c L = (o, s + 1) →
      (c = Cell.black → score B' < score B) ∧
      (c = Cell.white → score B < score B') := by
  intro B B' c L o s hc hL hB1 hB2 hB1' hB2' hoth h1 h2
  have hsB : score B = tallySum B := by
    unfold score
    rw [if_neg (by simp [hB1]), if_neg (by simp [hB2])]
  have hsB' : score B' = tallySum B' := by
    unfold score
    rw [if_neg (by simp [hB1']), if_neg (by simp [hB2'])]
  simp only [List.mem_cons, List.not_mem_nil, or_false] at hL
  rcases hc with hc | hc <;> subst hc
  · refine ⟨fun _ => ?_, fun hcc => by simp at hcc⟩
    rcases hL with hL | hL | hL <;> subst hL <;>
      rw [hsB, hsB'] <;> unfold tallySum colorTerm <;> rw [h1, h2]
    · rw [← hoth Cell.black (by simp) 3 (by simp) (by simp),
        ← hoth Cell.black (by simp) 4 (by simp) (by simp),
        ← hoth Cell.white (by simp) 2 (by simp) (by simp),
        ← hoth Cell.white (by simp) 3 (by simp) (by simp),
        ← hoth Cell.white (by simp) 4 (by simp) (by simp)]
      unfold tallyContrib
      rw [show openVal 2 = 10 from rfl, show semiVal 2 = 1 from rfl]
      push_cast
      linarith
    · rw [← hoth Cell.black (by simp) 2 (by simp) (by simp),
        ← hoth Cell.black (by simp) 4 (by simp) (by simp),
        ← hoth Cell.white (by simp) 2 (by simp) (by simp),
        ← hoth Cell.white (by simp) 3 (by simp) (by simp),
        ← hoth Cell.white (by simp) 4 (by simp) (by simp)]
      unfold tallyContrib
      rw [show openVal 3 = 100 from rfl, show semiVal 3 = 10 from rfl]
      push_cast
      linarith
    · rw [← hoth Cell.black (by simp) 2 (by simp) (by simp),
        ← hoth Cell.black (by simp) 3 (by simp) (by simp),
        ← hoth Cell.white (by simp) 2 (by simp) (by simp),
        ← hoth Cell.white (by simp) 3 (by simp) (by simp),
        ← hoth Cell.white (by simp) 4 (by simp) (by simp)]
      unfold tallyContrib
      rw [show openVal 4 = 10000 from rfl, show semiVal 4 = 1000 from rfl]
      push_cast
      linarith
  · refine ⟨fun hcc => by simp at hcc, fun _ => ?_⟩
    rcases hL with hL | hL | hL <;> subst hL <;>
      rw [hsB, hsB'] <;> unfold tallySum colorTerm <;> rw [h1, h2]
    · rw [← hoth Cell.black (by simp) 2 (by simp) (by simp),
        ← hoth Cell.black (by simp) 3 (by simp) (by simp),
        ← hoth Cell.black (by simp) 4 (by simp) (by simp),
        ← hoth Cell.white (by simp) 3 (by simp) (by simp),
        ← hoth Cell.white (by simp) 4 (by simp) (by simp)]
      unfold tallyContrib
      rw [show openVal 2 = 10 from rfl, show semiVal 2 = 1 from rfl]
      push_cast
      linarith
    · rw [← hoth Cell.black (by simp) 2 (by simp) (by simp),
        ← hoth Cell.black (by simp) 3 (by simp) (by simp),
        ← hoth Cell.black (by simp) 4 (by simp) (by simp),
        ← hoth Cell.white (by simp) 2 (by simp) (by simp),
        ← hoth Cell.white (by simp) 4 (by simp) (by simp)]
      unfold tallyContrib
      rw [show openVal 3 = 100 from rfl, show semiVal 3 = 10 from rfl]
      push_cast
      linarith
    · rw [← hoth Cell.black (by simp) 2 (by simp) (by simp),
        ← hoth Cell.black (by simp) 3 (by simp) (by simp),
        ← hoth Cell.black (by simp) 4 (by simp) (by simp),
        ← hoth Cell.white (by simp) 2 (by simp) (by simp),
        ← hoth Cell.white (by simp) 3 (by simp) (by simp)]
      unfold tallyContrib
      rw [show openVal 4 = 10000 from rfl, show semiVal 4 = 1000 from rfl]
      push_cast
      linarith

/-- Witness for C8: the open black three versus the same three with its
left flank blocked (the boards of `test_score_semi_open_less_than_open`,
on a 5×5 board), with every hypothesis checked concretely. -/
theorem score_open_gt_semiopen_witness :
    detect_rows bOpenThree Cell.black 3 = (1, 0) ∧
    detect_rows bSemiThree Cell.black 3 = (0, 1) ∧
    score bSemiThree < score bOpenThree :=
  ⟨by decide, by decide,
    (score_open_gt_semiopen bOpenThree bSemiThree Cell.black 3 0 0
      (Or.inl rfl) (by decide) (by decide) (by decide) (by decide) (by decide)
      (by decide) (by decide) (by decide)).1 rfl⟩
